import Mathlib

set_option linter.unusedVariables false

/-!
Verification of the deferred relational expression layer of leanframe
(`leanframe/core/__init__.py` and `leanframe/core/blocks.py`).

The backend query library (ibis) is modelled by a deep embedding:
`IbisExpr` for scalar/window value expressions and `TableExpr` for table
expressions, together with an executable evaluator that plays the role of
the execution engine.  Machine values are `Val` (integers, strings,
booleans); a table cell is an `Option Val`, with `none` for SQL NULL.

The modules `leanframe.core.ordering` and `leanframe.guid` are imported by
the source but are not part of the repository snapshot; the definitions
taken from them are modelled from the specification and are marked
`Modelled from the spec:` in their doc comments.
-/

/-- Backend scalar values: 64-bit integers are modelled as unbounded
integers (no claim exercises overflow), strings, and booleans. -/
inductive Val where
  | i (n : Int)
  | s (str : String)
  | b (bo : Bool)
deriving DecidableEq, Repr

/-- A table cell; `none` is SQL NULL. -/
abbrev Cell := Option Val

/-- Fueled helper for `decChars`; the fuel only needs to exceed the
value (each recursion divides by 10). -/
def decCharsAux : Nat → Nat → List Char
  | 0, _ => []
  | fuel + 1, n =>
    if n < 10 then [Nat.digitChar n]
    else decCharsAux fuel (n / 10) ++ [Nat.digitChar (n % 10)]

/-- Decimal digit characters of a natural number, most significant first.
This is exactly the Python `str(n)` for a non-negative integer. -/
def decChars (n : Nat) : List Char := decCharsAux (n + 1) n

/-- Python `str(n).zfill(width)`: left-pad the decimal representation with
zero characters up to `width`; a representation already longer than
`width` is returned unchanged. -/
def zfillNat (width n : Nat) : List Char :=
  List.replicate (width - (decChars n).length) ('0') ++ decChars n

/-- Zero-padded decimal representation defined by a most-significant-first
recursion on the width.  For `n < 10 ^ w` it coincides with
`zfillNat w n`; its shape makes lexicographic reasoning by induction on
the width possible. -/
def msbChars : Nat → Nat → List Char
  | 0, _ => []
  | w + 1, n => Nat.digitChar (n / 10 ^ w) :: msbChars w (n % 10 ^ w)

/-- Lexicographic strict comparison of character lists (byte order on the
digit characters used here agrees with numeric digit order). -/
def lexLt : List Char → List Char → Bool
  | [], [] => false
  | [], _ :: _ => true
  | _ :: _, [] => false
  | a :: xs, b :: ys => if a < b then true else if b < a then false else lexLt xs ys

/-- A materialized table: column names plus rows of cells (each row
aligned positionally with `cols`). -/
structure Table where
  cols : List String
  rows : List (List Cell)
deriving DecidableEq, Repr

/-- Cell of a row in column `name`, given the column-name list; `none`
when the column is absent. -/
def rowCell (cols : List String) (row : List Cell) (name : String) : Cell :=
  match cols, row with
  | [], _ => none
  | _ :: _, [] => none
  | c :: cs, x :: xs => if c = name then x else rowCell cs xs name

/-- Cell of row `i` in column `name`; `none` when out of range. -/
def Table.cellAt (T : Table) (i : Nat) (name : String) : Cell :=
  rowCell T.cols (T.rows.getD i []) name

mutual
/-- Deep embedding of the fragment of ibis value expressions that the
core layer builds: column references, literals, NULL, IS NULL, logical
AND (three-valued), comparison, CASE WHEN, string concatenation with a
constant, the zero-padding `stringify_order_id`, and the two window
functions used (`row_number` and non-null `count` over a window).
Window sort keys and grouping keys are carried by the mutually inductive
`KeyList` and `ExprList` (isomorphic to `List (IbisExpr × Bool)` and
`List IbisExpr`) so that every function on expressions is plain
structural recursion and evaluates inside the kernel. -/
inductive IbisExpr where
  | col (name : String)
  | lit (v : Val)
  | nullLit
  | isNullE (e : IbisExpr)
  | andE (a b : IbisExpr)
  | ltE (a b : IbisExpr)
  | caseWhen (cond val els : IbisExpr)
  | strCat (pre : String) (e : IbisExpr)
  | stringifyId (e : IbisExpr) (width : Nat)
  | rowNumberE (orderKeys : KeyList) (grpKeys : ExprList)
  | countNNE (arg : IbisExpr) (orderKeys : KeyList) (grpKeys : ExprList)
      (prec fol : Option Nat)

/-- Sort keys of a window: expression plus direction (`true` ascending). -/
inductive KeyList where
  | nil
  | cons (e : IbisExpr) (asc : Bool) (rest : KeyList)

/-- Grouping keys of a window. -/
inductive ExprList where
  | nil
  | cons (e : IbisExpr) (rest : ExprList)
end

deriving instance DecidableEq for IbisExpr
deriving instance DecidableEq for KeyList
deriving instance DecidableEq for ExprList

/-- Converts a plain list of directed sort keys into a `KeyList`. -/
def KeyList.ofList : List (IbisExpr × Bool) → KeyList
  | [] => .nil
  | (e, d) :: rest => .cons e d (KeyList.ofList rest)

/-- Converts a plain list of expressions into an `ExprList`. -/
def ExprList.ofList : List IbisExpr → ExprList
  | [] => .nil
  | e :: rest => .cons e (ExprList.ofList rest)

/-- Strict order on values used by the modelled backend when sorting:
integers numerically, strings lexicographically, `false` before `true`.
Values of distinct kinds never meet in a well-typed query; they are
ordered arbitrarily (booleans, then integers, then strings). -/
def Val.ltB : Val → Val → Bool
  | .b x, .b y => !x && y
  | .b _, .i _ => true
  | .b _, .s _ => true
  | .i _, .b _ => false
  | .i x, .i y => decide (x < y)
  | .i _, .s _ => true
  | .s _, .b _ => false
  | .s _, .i _ => false
  | .s x, .s y => lexLt x.data y.data

/-- BigQuery considers NULL the smallest value when sorting (comment at
`_convert_ordering_to_table_values`), so the modelled backend sorts
`none` first in ascending direction. -/
def cellLtB : Cell → Cell → Bool
  | none, none => false
  | none, some _ => true
  | some _, none => false
  | some a, some b => a.ltB b

/-- Directional cell comparison: `true` means ascending. -/
def dirLt (asc : Bool) (a b : Cell) : Bool :=
  if asc then cellLtB a b else cellLtB b a

/-- Lexicographic comparison of evaluated sort-key lists, each key with
its own direction. -/
def keysLt : List (Cell × Bool) → List (Cell × Bool) → Bool
  | [], _ => false
  | _ :: _, [] => false
  | (a, d) :: xs, (b, _) :: ys =>
    if dirLt d a b then true else if dirLt d b a then false else keysLt xs ys

/-- Total strict order on (sort keys, original row index) pairs: key
order first, original position as the tie-break.  This pins down one
deterministic row order for the modelled backend. -/
def keyPairLt (p q : List (Cell × Bool) × Nat) : Bool :=
  keysLt p.1 q.1 || (!keysLt p.1 q.1 && !keysLt q.1 p.1 && decide (p.2 < q.2))

/-- Rank of row `i` under a window: the number of rows in the same group
whose (keys, index) pair is strictly smaller.  This is the 0-based
`row_number` of the modelled backend, and also the position used for
row-bounded window frames. -/
def rankWindow (n : Nat) (grp : Nat → List Cell) (keys : Nat → List (Cell × Bool))
    (i : Nat) : Nat :=
  ((List.range n).filter
    (fun j => decide (grp j = grp i) && keyPairLt (keys j, j) (keys i, i))).length

/-- Whether position `pj` falls in the frame of a row at position `pi`
with the given preceding/following row bounds (`none` is unbounded). -/
def inFrame (pj pi : Nat) (prec fol : Option Nat) : Bool :=
  (match prec with | none => true | some p => decide (pi ≤ pj + p)) &&
  (match fol with | none => true | some f => decide (pj ≤ pi + f))

/-- Number of rows in the window frame of row `i` whose argument cell is
not NULL: the semantics of `count` over a window in the modelled
backend. -/
def countWindow (n : Nat) (grp : Nat → List Cell) (keys : Nat → List (Cell × Bool))
    (arg : Nat → Cell) (prec fol : Option Nat) (i : Nat) : Nat :=
  ((List.range n).filter
    (fun j => decide (grp j = grp i)
      && inFrame (rankWindow n grp keys j) (rankWindow n grp keys i) prec fol
      && !(arg j).isNone)).length

mutual
/-- Evaluator for value expressions against a materialized table and a
row index; this plays the role of the execution engine evaluating one
output cell. -/
def IbisExpr.evalAt (T : Table) : IbisExpr → Nat → Cell
  | .col name, i => T.cellAt i name
  | .lit v, _ => some v
  | .nullLit, _ => none
  | .isNullE a, i => some (.b (IbisExpr.evalAt T a i).isNone)
  | .andE a b, i =>
    match IbisExpr.evalAt T a i, IbisExpr.evalAt T b i with
    | some (.b false), _ => some (.b false)
    | _, some (.b false) => some (.b false)
    | some (.b true), some (.b true) => some (.b true)
    | _, _ => none
  | .ltE a b, i =>
    match IbisExpr.evalAt T a i, IbisExpr.evalAt T b i with
    | some (.i x), some (.i y) => some (.b (decide (x < y)))
    | some (.s x), some (.s y) => some (.b (lexLt x.data y.data))
    | _, _ => none
  | .caseWhen c v els, i =>
    if IbisExpr.evalAt T c i = some (.b true) then IbisExpr.evalAt T v i
    else IbisExpr.evalAt T els i
  | .strCat pre a, i =>
    match IbisExpr.evalAt T a i with
    | some (.s t) => some (.s (pre ++ t))
    | _ => none
  | .stringifyId a w, i =>
    match IbisExpr.evalAt T a i with
    | some (.i n) => if n < 0 then none else some (.s (String.mk (zfillNat w n.toNat)))
    | _ => none
  | .rowNumberE ks gs, i =>
    some (.i (Int.ofNat (rankWindow T.rows.length
      (fun j => ExprList.evalAll T gs j)
      (fun j => KeyList.evalAll T ks j) i)))
  | .countNNE a ks gs p fo, i =>
    some (.i (Int.ofNat (countWindow T.rows.length
      (fun j => ExprList.evalAll T gs j)
      (fun j => KeyList.evalAll T ks j)
      (fun j => IbisExpr.evalAt T a j) p fo i)))

/-- Evaluates every sort key of a window at row `i`. -/
def KeyList.evalAll (T : Table) : KeyList → Nat → List (Cell × Bool)
  | .nil, _ => []
  | .cons e d rest, i => (IbisExpr.evalAt T e i, d) :: KeyList.evalAll T rest i

/-- Evaluates every grouping key of a window at row `i`. -/
def ExprList.evalAll (T : Table) : ExprList → Nat → List Cell
  | .nil, _ => []
  | .cons e rest, i => IbisExpr.evalAt T e i :: ExprList.evalAll T rest i
end

/-- Generic insertion step for `sortBy`: places `a` before the first
element strictly greater under `lt`. -/
def insertBy (lt : α → α → Bool) (a : α) : List α → List α
  | [] => [a]
  | x :: xs => if lt a x then a :: x :: xs else x :: insertBy lt a xs

/-- Insertion sort by a strict comparison; with a total strict order it
produces the unique sorted arrangement. -/
def sortBy (lt : α → α → Bool) : List α → List α
  | [] => []
  | x :: xs => insertBy lt x (sortBy lt xs)

/-- Sorts the rows of a table by the given directed sort keys, breaking
ties by original row position (one deterministic order of the modelled
backend). -/
def Table.sortRowsBy (T : Table) (keys : List (IbisExpr × Bool)) : Table :=
  let dec := (List.range T.rows.length).map
    (fun i => (keys.map (fun k => (IbisExpr.evalAt T k.1 i, k.2)), i))
  let sorted := sortBy keyPairLt dec
  ⟨T.cols, sorted.map (fun p => T.rows.getD p.2 [])⟩

/-- Removes the named columns (and their cells) from a table. -/
def Table.dropCols (T : Table) (names : List String) : Table :=
  let keep := (T.cols.enum.filter (fun p => ¬ names.contains p.2)).map (fun p => p.1)
  ⟨T.cols.filter (fun c => ¬ names.contains c),
   T.rows.map (fun r => keep.map (fun k => r.getD k none))⟩

mutual
/-- Deep embedding of the fragment of ibis table expressions the core
layer builds: physical tables, projection (`select` with named value
expressions), filtering by a boolean column, dropping columns, ordering
by directed sort keys, and n-ary `union`.  The union argument is the
mutually inductive `TableListE` (isomorphic to `List TableExpr`) so that
all functions below are structural recursions. -/
inductive TableExpr where
  | base (cols : List String) (rows : List (List Cell))
  | selectT (t : TableExpr) (cols : List (String × IbisExpr))
  | filterCol (t : TableExpr) (name : String)
  | dropT (t : TableExpr) (names : List String)
  | orderByT (t : TableExpr) (keys : List (IbisExpr × Bool))
  | unionT (ts : TableListE)

/-- List of table expressions, for `ibis.union`. -/
inductive TableListE where
  | nil
  | cons (t : TableExpr) (rest : TableListE)
end

deriving instance DecidableEq for TableExpr
deriving instance DecidableEq for TableListE

/-- Converts a plain list of table expressions into a `TableListE`. -/
def TableListE.ofList : List TableExpr → TableListE
  | [] => .nil
  | t :: rest => .cons t (TableListE.ofList rest)

/-- Column-name list (schema) of a table expression, as exposed by
`table.columns` in ibis. -/
def TableExpr.columnsOf : TableExpr → List String
  | .base cols _ => cols
  | .selectT _ cols => cols.map (fun c => c.1)
  | .filterCol t _ => TableExpr.columnsOf t
  | .dropT t names => (TableExpr.columnsOf t).filter (fun c => ¬ names.contains c)
  | .orderByT t _ => TableExpr.columnsOf t
  | .unionT .nil => []
  | .unionT (.cons t _) => TableExpr.columnsOf t

mutual
/-- Executes a table expression: the modelled backend.  `select`
evaluates each named value expression at every row of the input;
`filterCol` keeps the rows whose named cell is boolean TRUE (SQL WHERE
drops NULL and FALSE); `union` concatenates row sets (UNION ALL), taking
the schema of the first input. -/
def TableExpr.eval : TableExpr → Table
  | .base cols rows => ⟨cols, rows⟩
  | .selectT t cols =>
    let T := TableExpr.eval t
    ⟨cols.map (fun c => c.1),
     (List.range T.rows.length).map (fun i => cols.map (fun c => IbisExpr.evalAt T c.2 i))⟩
  | .filterCol t name =>
    let T := TableExpr.eval t
    ⟨T.cols, T.rows.filter (fun r => decide (rowCell T.cols r name = some (.b true)))⟩
  | .dropT t names => (TableExpr.eval t).dropCols names
  | .orderByT t keys => (TableExpr.eval t).sortRowsBy keys
  | .unionT .nil => ⟨[], []⟩
  | .unionT (.cons t rest) =>
    let T := TableExpr.eval t
    ⟨T.cols, T.rows ++ TableListE.evalRows rest⟩

/-- Rows contributed by the remaining inputs of a union. -/
def TableListE.evalRows : TableListE → List (List Cell)
  | .nil => []
  | .cons t rest => (TableExpr.eval t).rows ++ TableListE.evalRows rest
end

/-- Values of one column of a table, in row order. -/
def Table.colVals (T : Table) (name : String) : List Cell :=
  T.rows.map (fun r => rowCell T.cols r name)

/-- Direction of an ordering key (spec section 3, OrderingKeyRef). -/
inductive OrderingDirection where
  | ASC
  | DESC
deriving DecidableEq, Repr

/-- Whether the direction is ascending. -/
def OrderingDirection.is_ascending : OrderingDirection → Bool
  | .ASC => true
  | .DESC => false

/-- Modelled from the spec: `OrderingColumnReference` from the module
`leanframe.core.ordering`, which is missing from the snapshot — one
ordering instruction: column identifier, direction, null-placement
policy (spec section 3, OrderingKeyRef).  The spec fixes no default null
placement; the default chosen here matches the backend native placement
(nulls first when ascending) and no verified claim depends on it. -/
structure OrderingColumnReference where
  column_id : String
  direction : OrderingDirection := .ASC
  na_last : Bool := false
deriving DecidableEq, Repr

/-- Renames the referenced column, keeping direction and null placement
(used by `_hide_column` when an ordering column is renamed into the meta
columns). -/
def OrderingColumnReference.with_name (r : OrderingColumnReference) (n : String) :
    OrderingColumnReference :=
  { r with column_id := n }

/-- Modelled from the spec: default string-encoding width of an ordering
id.  The spec only requires `encoding_width` to be large enough for the
id values of the expression; the concrete default is immaterial to every
claim (claim C2 is proved for arbitrary encoding sizes). -/
def DEFAULT_ORDERING_ID_LENGTH : Nat := 18

/-- Modelled from the spec: `ExpressionOrdering` from the missing module
`leanframe.core.ordering` (spec section 3, OrderingSpec): ordered keys,
optional designated ordering-id column, sequential flag, and the
string-encoding width for union id comparison. -/
structure ExpressionOrdering where
  ordering_value_columns : List OrderingColumnReference := []
  ordering_id_column : Option OrderingColumnReference := none
  is_sequential : Bool := false
  ordering_encoding_size : Nat := DEFAULT_ORDERING_ID_LENGTH
deriving DecidableEq, Repr

/-- Modelled from the spec: returns a copy with the sequential flag
replaced, all other fields (in particular the ordering-id column)
unchanged. -/
def ExpressionOrdering.with_is_sequential (o : ExpressionOrdering) (b : Bool) :
    ExpressionOrdering :=
  { o with is_sequential := b }

/-- Modelled from the spec: returns a copy with the ordering keys
replaced; the other fields are kept (a plain field replacement, as used
by `_hide_column` for renaming keys and by `order_by`). -/
def ExpressionOrdering.with_ordering_columns (o : ExpressionOrdering)
    (cols : List OrderingColumnReference) : ExpressionOrdering :=
  { o with ordering_value_columns := cols }

/-- Modelled from the spec: all ordering columns — the ordering keys
followed by the designated ordering-id column when present (the id is
the final tie-breaker; with no keys the id alone defines the order). -/
def ExpressionOrdering.all_ordering_columns (o : ExpressionOrdering) :
    List OrderingColumnReference :=
  o.ordering_value_columns ++
    (match o.ordering_id_column with | some c => [c] | none => [])

/-- Modelled from the spec: the column id of the designated ordering-id
column, when one exists. -/
def ExpressionOrdering.ordering_id (o : ExpressionOrdering) : Option String :=
  o.ordering_id_column.map (fun c => c.column_id)

/-- Modelled from the spec: whether an ordering-id column is defined
(spec compilation table, `ordered_col` regenerates only when no ordering
id is defined at all). -/
def ExpressionOrdering.order_id_defined (o : ExpressionOrdering) : Bool :=
  o.ordering_id_column.isSome

/-- Modelled from the spec: `stringify_order_id` renders an ordering id
as a zero-padded decimal string of the requested width, so that
lexicographic string comparison agrees with numeric comparison for ids
within the width (spec section 4.1, multi-source concatenation). -/
def stringify_order_id (e : IbisExpr) (length : Nat) : IbisExpr :=
  .stringifyId e length

/-- Modelled from the spec: `leanframe.guid.generate_guid` — the spec
(design notes) only requires a collision-resistant name unique within one
expression namespace; modelled as the prefixed smallest counter value
not colliding with the given taken names. -/
def generate_guid (pre : String) (taken : List String) : String :=
  pre ++ toString (((List.range (taken.length + 1)).filter
    (fun k => ¬ taken.contains (pre ++ toString k))).headD 0)

/-- WindowSpec (source lines 42-56): grouping keys, ordering override,
row bounds, and the minimum non-null count below which output is masked
to NULL (`min_periods = 0` means no masking). -/
structure WindowSpec where
  grouping_keys : List String := []
  ordering : List OrderingColumnReference := []
  preceding : Option Nat := none
  following : Option Nat := none
  min_periods : Nat := 0

/-- The name used for generated ordering-id columns (source line 38). -/
def ORDER_ID_COLUMN : String := "leanframe_ordering_id"

/-- The name used for the reduced predicate column (source line 39). -/
def PREDICATE_COLUMN : String := "leanframe_predicate"

/-- A windowable operator (`leanframe.aggregations.WindowOp`): whether it
skips NULL inputs, and its translation to a backend expression over a
window.  The translation is an abstract function: the claims hold for
every operator. -/
structure WindowOp where
  skips_nulls : Bool
  asIbisW : IbisExpr → KeyList → ExprList → Option Nat → Option Nat → IbisExpr

/-- The `count` window operator: counts non-null inputs over the window
frame (used by the source for the `min_periods` mask). -/
def count_op : WindowOp :=
  { skips_nulls := false,
    asIbisW := fun e ks gs p f => IbisExpr.countNNE e ks gs p f }

/-- BigFramesExpr (source lines 60-112): immutable deferred expression —
a backend table expression, named value columns, named hidden meta
columns, an ordering, and a list of filter predicates.  The session
field of the source only carries the backend connection and is not part
of the data model; the backend is the evaluator `TableExpr.eval`.  The
mutable `BigFramesExprBuilder` of the source is a transient staged copy
of exactly these fields committed by `build()`; each transformation
below performs the corresponding functional update directly. -/
structure BigFramesExpr where
  table : TableExpr
  columns : List (String × IbisExpr)
  meta_columns : List (String × IbisExpr)
  ordering : ExpressionOrdering := {}
  predicates : List IbisExpr := []
deriving DecidableEq

/-- Names of the value columns (the keys of `_column_names`). -/
def BigFramesExpr.columnNames (self : BigFramesExpr) : List String :=
  self.columns.map (fun c => c.1)

/-- Names of the hidden meta columns (the keys of `_meta_column_names`). -/
def BigFramesExpr.metaNames (self : BigFramesExpr) : List String :=
  self.meta_columns.map (fun c => c.1)

/-- All names in the expression namespace (value and meta columns). -/
def BigFramesExpr.allNames (self : BigFramesExpr) : List String :=
  self.columnNames ++ self.metaNames

/-- Reduces a list of predicates to a single boolean value (source lines
698-707): empty input is rejected; otherwise the left fold of logical
AND (`functools.reduce`). -/
def _reduce_predicate_list : List IbisExpr → Except String IbisExpr
  | [] => .error ("Cannot reduce empty list of predicates")
  | p :: ps => .ok (List.foldl IbisExpr.andE p ps)

/-- The reduced predicate property (source lines 122-129): the AND of all
active predicates named `PREDICATE_COLUMN`, computed only when at least
one predicate is present, and absent otherwise. -/
def BigFramesExpr.reduced_predicate (self : BigFramesExpr) :
    Option (String × IbisExpr) :=
  match self.predicates with
  | [] => none
  | p :: ps => some (PREDICATE_COLUMN, List.foldl IbisExpr.andE p ps)

/-- `get_column` (source lines 191-199): the expression of a value
column; an unknown name is an error. -/
def BigFramesExpr.get_column (self : BigFramesExpr) (key : String) :
    Except String IbisExpr :=
  match self.columns.find? (fun c => decide (c.1 = key)) with
  | some c => .ok c.2
  | none => .error ("Column name " ++ key ++ " not in set of values")

/-- `get_any_column` (source lines 201-210): also searches hidden meta
columns; on a name clash the meta column wins (Python dict merge). -/
def BigFramesExpr.get_any_column (self : BigFramesExpr) (key : String) :
    Except String IbisExpr :=
  match self.meta_columns.find? (fun c => decide (c.1 = key)) with
  | some c => .ok c.2
  | none =>
    match self.columns.find? (fun c => decide (c.1 = key)) with
    | some c => .ok c.2
    | none => .error ("Column name " ++ key ++ " not in set of values")

/-- `_get_meta_column` (source lines 212-220). -/
def BigFramesExpr._get_meta_column (self : BigFramesExpr) (key : String) :
    Except String IbisExpr :=
  match self.meta_columns.find? (fun c => decide (c.1 = key)) with
  | some c => .ok c.2
  | none => .error ("Column name " ++ key ++ " not in set of values")

/-- `_convert_ordering_to_table_values` (source lines 710-733): resolves
each ordering key against the lookup (a missing name is a Python
KeyError) and produces directed backend sort values; when the requested
null placement disagrees with what the backend direction would give
natively, a synthetic is-null key is placed ahead of the primary key in
the direction that forces the requested placement. -/
def _convert_ordering_to_table_values (value_lookup : String → Option IbisExpr)
    (ordering_columns : List OrderingColumnReference) :
    Except String (List (IbisExpr × Bool)) := do
  let lists ← ordering_columns.mapM (fun oc => do
    let column ← match value_lookup oc.column_id with
      | some c => Except.ok c
      | none => Except.error ("KeyError: " ++ oc.column_id)
    let ordering_value := (column, oc.direction.is_ascending)
    if ¬ oc.na_last ∧ ¬ oc.direction.is_ascending then
      Except.ok [(IbisExpr.isNullE column, false), ordering_value]
    else if oc.na_last ∧ oc.direction.is_ascending then
      Except.ok [(IbisExpr.isNullE column, true), ordering_value]
    else
      Except.ok [ordering_value])
  .ok lists.flatten

/-- The `ordering` property (source lines 143-155): the directed sort
values for all ordering columns, resolved against value and meta columns
(meta wins on a clash, Python dict merge). -/
def BigFramesExpr.orderingValues (self : BigFramesExpr) :
    Except String (List (IbisExpr × Bool)) :=
  _convert_ordering_to_table_values
    (fun c => ((self.get_any_column c).toOption)) self.ordering.all_ordering_columns

instance {α β : Type} [DecidableEq α] [DecidableEq β] : DecidableEq (Except α β) :=
  fun x y =>
    match x, y with
    | .error a, .error b =>
      if h : a = b then isTrue (by rw [h]) else isFalse (by intro hc; cases hc; exact h rfl)
    | .ok a, .ok b =>
      if h : a = b then isTrue (by rw [h]) else isFalse (by intro hc; cases hc; exact h rfl)
    | .error _, .ok _ => isFalse (by intro hc; cases hc)
    | .ok _, .error _ => isFalse (by intro hc; cases hc)

/-- Fueled search for the ceiling base-10 logarithm: the smallest
exponent `j ≥ k` with `m ≤ 10 ^ j`, given enough fuel. -/
def ceilLogAux : Nat → Nat → Nat → Nat
  | 0, _, k => k
  | fuel + 1, m, k => if m ≤ 10 ^ k then k else ceilLogAux fuel m (k + 1)

/-- Ceiling base-10 logarithm: the smallest `j` with `m ≤ 10 ^ j`, which
for `m ≥ 1` is the ceiling of the real log10 computed by the source
(`math.ceil(math.log(m, 10))`).  The lemma `ceilLog10_eq_clog` below
certifies it against `Nat.clog 10`. -/
def ceilLog10 (m : Nat) : Nat := ceilLogAux (m + 1) m 0

/-- The five compilation modes of `to_ibis_expr` (source lines 483-513). -/
inductive OrderingMode where
  | order_by
  | offset_col
  | ordered_col
  | expose_metadata
  | unordered
deriving DecidableEq, Repr

/-- `to_ibis_expr` (source lines 483-572): compiles the expression into a
backend table expression under one ordering mode.  The value columns
(plus the reduced predicate, when present, and the mode-dependent
ordering columns) are projected; the predicate column is then applied as
a filter and dropped; in `order_by` mode an order-by over all ordering
columns is attached and the hidden ordering-only columns are dropped
after sorting. -/
def BigFramesExpr.to_ibis_expr (self : BigFramesExpr) (ordering_mode : OrderingMode)
    (order_col_name : String) : Except String TableExpr := do
  let hidden_ordering_columns :=
    (self.ordering.all_ordering_columns.map (fun c => c.column_id)).filter
      (fun c => ¬ self.columnNames.contains c)
  let columns0 := self.columns ++
    (match self.reduced_predicate with | some p => [p] | none => [])
  let columns ←
    match ordering_mode with
    | .offset_col | .ordered_col =>
      if (ordering_mode = .offset_col ∧ self.ordering.is_sequential = false) ∨
         (ordering_mode = .ordered_col ∧ self.ordering.order_id_defined = false) then do
        let ordVals ← self.orderingValues
        let gb : List IbisExpr :=
          match self.reduced_predicate with | some p => [p.2] | none => []
        Except.ok (columns0 ++
          [(order_col_name,
            IbisExpr.rowNumberE (KeyList.ofList ordVals) (ExprList.ofList gb))])
      else
        match self.ordering.ordering_id with
        | some oid => do
          let m ← self._get_meta_column oid
          Except.ok (columns0 ++ [(order_col_name, m)])
        | none =>
          Except.error ("Expression does not have ordering id and none was generated.")
    | .order_by => do
      let metas ← hidden_ordering_columns.mapM (fun n => do
        let m ← self._get_meta_column n
        Except.ok (n, m))
      Except.ok (columns0 ++ metas)
    | .expose_metadata => Except.ok (columns0 ++ self.meta_columns)
    | .unordered => Except.ok columns0
  if columns.isEmpty then
    Except.ok (TableExpr.base [] [])
  else do
    let t1 := TableExpr.selectT self.table columns
    let t2 := match self.reduced_predicate with
      | some _ =>
        TableExpr.dropT (TableExpr.filterCol t1 PREDICATE_COLUMN) [PREDICATE_COLUMN]
      | none => t1
    match ordering_mode with
    | .order_by => do
      let sortVals ← _convert_ordering_to_table_values
        (fun c =>
          if (TableExpr.columnsOf t2).contains c then some (IbisExpr.col c) else none)
        self.ordering.all_ordering_columns
      Except.ok (TableExpr.dropT (TableExpr.orderByT t2 sortVals) hidden_ordering_columns)
    | _ => Except.ok t2

/-- `filter` (source lines 229-235): appends the predicate and demotes
the sequential flag.  The source guard `if expr.ordering:` tests the
truthiness of an `ExpressionOrdering` dataclass instance (always true:
the constructor substitutes a default instance for `None`), so the flag
is always demoted. -/
def BigFramesExpr.filter (self : BigFramesExpr) (predicate : IbisExpr) : BigFramesExpr :=
  { self with
    ordering := self.ordering.with_is_sequential false,
    predicates := self.predicates ++ [predicate] }

/-- `_hide_column` (source lines 271-288): copies a value column into the
meta columns under a fresh generated name and renames the matching
ordering keys to the new hidden name. -/
def BigFramesExpr._hide_column (self : BigFramesExpr) (column_id : String) :
    Except String BigFramesExpr := do
  let col ← self.get_column column_id
  let new_name := generate_guid ("leanframe_meta_") self.allNames
  let ordering_columns := self.ordering.ordering_value_columns.map
    (fun c => if c.column_id = column_id then c.with_name new_name else c)
  Except.ok { self with
    meta_columns := self.meta_columns ++ [(new_name, col)],
    ordering := self.ordering.with_ordering_columns ordering_columns }

/-- `drop_columns` (source lines 176-189).  Note the loop in the source
(line 182) rebinds `expr = self._hide_column(ordering_column)` from
`self` on every iteration — not from the previous `expr` — so when
several ordering-dependency columns are dropped only the last one ends
up hidden; the fold below ignores its accumulator to mirror this
faithfully.  The iteration order of the Python set intersection is
unspecified; it is modelled as first-occurrence order of the ordering
keys, which does not affect which single column survives the rebinding
in the multi-column case, nor the singleton case. -/
def BigFramesExpr.drop_columns (self : BigFramesExpr) (columns : List String) :
    Except String BigFramesExpr := do
  let deps := ((self.ordering.ordering_value_columns.map (fun c => c.column_id)).filter
    (fun c => columns.contains c)).dedup
  let expr ← deps.foldlM (fun (_e : BigFramesExpr) c => self._hide_column c) self
  Except.ok { expr with
    columns := expr.columns.filter (fun c => ¬ columns.contains c.1) }

/-- `project_offsets` (source lines 250-269): returns `self` unchanged
when the ordering is already sequential; otherwise compiles under
`offset_col` mode requesting a dense row-number column and wraps the
result with a sequential ordering whose id is the new meta column. -/
def BigFramesExpr.project_offsets (self : BigFramesExpr) :
    Except String BigFramesExpr := do
  if self.ordering.is_sequential then Except.ok self
  else do
    let table ← self.to_ibis_expr .offset_col ORDER_ID_COLUMN
    Except.ok
      { table := table,
        columns := self.columnNames.map (fun n => (n, IbisExpr.col n)),
        meta_columns := [(ORDER_ID_COLUMN, IbisExpr.col ORDER_ID_COLUMN)],
        ordering :=
          { ordering_value_columns := [],
            ordering_id_column := some { column_id := ORDER_ID_COLUMN },
            is_sequential := true,
            ordering_encoding_size := DEFAULT_ORDERING_ID_LENGTH },
        predicates := [] }

/-- `promote_offsets` (source lines 290-308) with an explicit recursion
budget: when the ordering is not sequential or has no ordering id, the
source calls `self.project_offsets().promote_offsets(id)`; otherwise it
prepends a copy of the ordering-id meta column as a value column.
`none` means the budget was exhausted before the recursion terminated
(the termination claim C7 shows a budget of 2 always suffices for
expressions satisfying the documented ordering invariant). -/
def BigFramesExpr.promote_offsets_fuel :
    Nat → BigFramesExpr → String → Option (Except String BigFramesExpr)
  | 0, _, _ => none
  | fuel + 1, self, value_col_id =>
    let ordering := self.ordering
    if ordering.is_sequential = false ∨ ordering.ordering_id = none then
      match self.project_offsets with
      | .error e => some (.error e)
      | .ok e2 => BigFramesExpr.promote_offsets_fuel fuel e2 value_col_id
    else
      match ordering.ordering_id with
      | none => some (.error ("unreachable: ordering id missing"))
      | some oid =>
        some (do
          let m ← self._get_meta_column oid
          Except.ok { self with columns := (value_col_id, m) :: self.columns })

/-- `promote_offsets` with the recursion budget that claim C7 proves
sufficient. -/
def BigFramesExpr.promote_offsets (self : BigFramesExpr) (value_col_id : String) :
    Option (Except String BigFramesExpr) :=
  BigFramesExpr.promote_offsets_fuel 2 self value_col_id

/-- `concat` (source lines 336-381): an empty sibling list returns
`self`; otherwise each source is compiled under `ordered_col` mode, its
ordering id is rendered as a decimal string zero-padded to the maximum
encoding size over all sources and prefixed with the zero-padded source
index (`ceil(log10(N+1))` digits, modelled by `Nat.clog 10`), the
sources are unioned, and the result records encoding size
`prefix_size + max_encoding_size` with the combined id as a
non-sequential ordering-id meta column. -/
def BigFramesExpr.concat (self : BigFramesExpr) (other : List BigFramesExpr) :
    Except String BigFramesExpr := do
  if other.isEmpty then Except.ok self
  else do
    let prefix_size := ceilLog10 (other.length + 1)
    let max_encoding_size :=
      (other.map (fun e => e.ordering.ordering_encoding_size)).foldl
        max self.ordering.ordering_encoding_size
    let tables ← (self :: other).enum.mapM (fun p => do
      let table ← p.2.to_ibis_expr .ordered_col ORDER_ID_COLUMN
      Except.ok (TableExpr.selectT table ((TableExpr.columnsOf table).map (fun c =>
        if c = ORDER_ID_COLUMN then
          (ORDER_ID_COLUMN,
           IbisExpr.strCat (String.mk (zfillNat prefix_size p.1))
             (stringify_order_id (IbisExpr.col ORDER_ID_COLUMN) max_encoding_size))
        else (c, IbisExpr.col c)))))
    let combined_table := TableExpr.unionT (TableListE.ofList tables)
    Except.ok
      { table := combined_table,
        columns := ((TableExpr.columnsOf combined_table).filter
          (fun c => ¬ c = ORDER_ID_COLUMN)).map (fun c => (c, IbisExpr.col c)),
        meta_columns := [(ORDER_ID_COLUMN, IbisExpr.col ORDER_ID_COLUMN)],
        ordering :=
          { ordering_value_columns := [],
            ordering_id_column := some { column_id := ORDER_ID_COLUMN },
            is_sequential := false,
            ordering_encoding_size := prefix_size + max_encoding_size },
        predicates := [] }

/-- `_set_or_replace_by_id` (source lines 657-663): drops an existing
value column of that id (through the hide-protecting `drop_columns`) and
appends the new named value. -/
def BigFramesExpr._set_or_replace_by_id (self : BigFramesExpr) (id : String)
    (value : IbisExpr) : Except String BigFramesExpr := do
  let expr ←
    if self.columnNames.contains id then self.drop_columns [id] else Except.ok self
  Except.ok { expr with columns := expr.columns ++ [(id, value)] }

/-- `_reproject_to_table` (source lines 595-614): compiles under
`expose_metadata` mode and rebuilds the expression with every value and
meta column as a direct reference into the new table, keeping the
ordering.  The source passes its ordering id (possibly `None`, modelled
by the default name) as the order column name; the argument is unused in
`expose_metadata` mode. -/
def BigFramesExpr._reproject_to_table (self : BigFramesExpr) :
    Except String BigFramesExpr := do
  let table ← self.to_ibis_expr .expose_metadata
    (match self.ordering.ordering_id with | some s => s | none => ORDER_ID_COLUMN)
  Except.ok
    { table := table,
      columns := self.columnNames.map (fun n => (n, IbisExpr.col n)),
      meta_columns := self.metaNames.map (fun n => (n, IbisExpr.col n)),
      ordering := self.ordering,
      predicates := [] }

/-- The window produced by `_ibis_window_from_spec` (source lines
616-643): directed sort values, grouping values, and row bounds, as
passed to `ibis.window`.  An absent ordering (`order_by=None`) is
modelled as the empty key list. -/
structure WindowDef where
  order_by : List (IbisExpr × Bool)
  group_by : List IbisExpr
  preceding : Option Nat
  following : Option Nat

/-- `_ibis_window_from_spec` (source lines 616-643): grouping keys are
the named columns plus the reduced predicate when present; the sort keys
are the converted ordering override followed by the base ordering, or
the base ordering alone when explicit bounds require an unambiguous
order, or absent for an unbound grouping window. -/
def BigFramesExpr._ibis_window_from_spec (self : BigFramesExpr)
    (window_spec : WindowSpec) : Except String WindowDef := do
  let gcols ← window_spec.grouping_keys.mapM (fun c => self.get_column c)
  let group_by := gcols ++
    (match self.reduced_predicate with | some p => [p.2] | none => [])
  let order_by ←
    if window_spec.ordering.isEmpty = false then do
      let overrides ← _convert_ordering_to_table_values
        (fun c => (self.get_any_column c).toOption) window_spec.ordering
      let base ← self.orderingValues
      Except.ok (overrides ++ base)
    else if window_spec.following.isSome ∨ window_spec.preceding.isSome then
      self.orderingValues
    else Except.ok []
  Except.ok
    { order_by := order_by, group_by := group_by,
      preceding := window_spec.preceding, following := window_spec.following }

/-- The masked window operator expression built by `project_window_op`
(source lines 455-477): the operator applied over the window, wrapped in
a CASE that yields NULL when the operator skips nulls and the input is
NULL, and NULL when `min_periods` is set and the non-null count over the
window is below it. -/
def window_op_expr (column : IbisExpr) (op : WindowOp) (w : WindowDef)
    (min_periods : Nat) : IbisExpr :=
  let ks := KeyList.ofList w.order_by
  let gs := ExprList.ofList w.group_by
  let applied := op.asIbisW column ks gs w.preceding w.following
  let clauses :=
    (if op.skips_nulls then [(IbisExpr.isNullE column, IbisExpr.nullLit)] else []) ++
    (if min_periods ≠ 0 then
      [(IbisExpr.ltE (count_op.asIbisW column ks gs w.preceding w.following)
          (IbisExpr.lit (Val.i (Int.ofNat min_periods))), IbisExpr.nullLit)]
     else [])
  clauses.foldr (fun cl acc => IbisExpr.caseWhen cl.1 cl.2 acc) applied

/-- The number of non-null values of `column` inside the window frame of
row `i` (same group, row-bounded frame): exactly what the count window
operator evaluates to, see `evalAt_count_op` below. -/
def windowNonNullCount (T : Table) (column : IbisExpr) (w : WindowDef) (i : Nat) : Nat :=
  countWindow T.rows.length
    (fun j => ExprList.evalAll T (ExprList.ofList w.group_by) j)
    (fun j => KeyList.evalAll T (KeyList.ofList w.order_by) j)
    (fun j => IbisExpr.evalAt T column j) w.preceding w.following i

/-- `project_window_op` (source lines 438-481): applies the masked
window operator as (or over) the named output column, then reprojects to
a fresh table expression unless explicitly skipped. -/
def BigFramesExpr.project_window_op (self : BigFramesExpr) (column_name : String)
    (op : WindowOp) (window_spec : WindowSpec) (output_name : Option String)
    ( skip_reproject_unsafe : Bool) : Except String BigFramesExpr := do
  let column ← self.get_column column_name
  let window ← self._ibis_window_from_spec window_spec
  let masked := window_op_expr column op window window_spec.min_periods
  let result ← self._set_or_replace_by_id (output_name.getD column_name) masked
  if skip_reproject_unsafe then Except.ok result else result._reproject_to_table

/-- `shape` of the deferred expression (source lines 327-334): the width
is the number of value columns; the length is the row count of the
expression compiled under `unordered` mode, executed by the backend. -/
def BigFramesExpr.shape (self : BigFramesExpr) : Except String (Nat × Nat) := do
  let width := self.columns.length
  let t ← self.to_ibis_expr .unordered ORDER_ID_COLUMN
  Except.ok ((TableExpr.eval t).rows.length, width)

/-- Block (blocks.py lines 43-54).  `__init__` assigns only `_table`,
`_columns` and `_order_by_columns`; the legacy methods such as `shape`
read the attributes `_expr` and `index_columns`, which no code path ever
assigns.  The instance attribute dictionary is modelled explicitly:
attributes never assigned are `none`, and reading them is a Python
AttributeError. -/
structure Block where
  _table : TableExpr
  _columns : List (String × IbisExpr)
  _order_by_columns : List (IbisExpr × Bool)
  _expr : Option BigFramesExpr
  index_columns_attr : Option (List String)

/-- `Block.__init__` (blocks.py lines 46-54): stores the three given
fields; `_expr` and `index_columns` are left unset. -/
def Block.init (table : TableExpr) (columns : List (String × IbisExpr))
    (order_by_columns : List (IbisExpr × Bool)) : Block :=
  { _table := table, _columns := columns, _order_by_columns := order_by_columns,
    _expr := none, index_columns_attr := none }

/-- `Block.shape` (blocks.py lines 203-206): reads `self._expr`,
delegates to the expression shape, and subtracts the number of index
columns from the width. -/
def Block.shape (b : Block) : Except String (Nat × Nat) := do
  let expr ← match b._expr with
    | some e => Except.ok e
    | none => Except.error ("AttributeError: Block object has no attribute _expr")
  let dims ← expr.shape
  let index_columns ← match b.index_columns_attr with
    | some ic => Except.ok ic
    | none =>
      Except.error ("AttributeError: Block object has no attribute index_columns")
  Except.ok (dims.1, dims.2 - index_columns.length)

/-- The per-source projection `concat` applies before the union (source
lines 353-364): every column is kept as is, except that the ordering-id
column is replaced by the zero-padded source index concatenated with the
ordering id rendered at the maximum encoding width. -/
def selConcat (psize w k : Nat) (t : TableExpr) : TableExpr :=
  TableExpr.selectT t ((TableExpr.columnsOf t).map (fun c =>
    if c = ORDER_ID_COLUMN then
      (ORDER_ID_COLUMN,
       IbisExpr.strCat (String.mk (zfillNat psize k))
         (stringify_order_id (IbisExpr.col ORDER_ID_COLUMN) w))
    else (c, IbisExpr.col c)))

/-- The combined ordering id of row `v` of source `k` after `concat`:
the zero-padded source index followed by the zero-padded ordering id. -/
def combinedIdCell (psize w k v : Nat) : Cell :=
  some (Val.s (String.mk (zfillNat psize k ++ zfillNat w v)))

/-! Concrete inputs used by witnesses and by the failing-input theorems. -/

/-- A two-row base table with three integer columns. -/
def tblABC : TableExpr := .base ["a", "b", "c"]
  [[some (.i 1), some (.i 10), some (.i 100)],
   [some (.i 2), some (.i 20), some (.i 200)]]

/-- An expression over `tblABC` ordered by the value columns `a` then
`b`, with no ordering id (non-sequential). -/
def exprABC : BigFramesExpr :=
  { table := tblABC,
    columns := [("a", .col ("a")), ("b", .col ("b")), ("c", .col ("c"))],
    meta_columns := [],
    ordering :=
      { ordering_value_columns := [{ column_id := "a" }, { column_id := "b" }],
        ordering_id_column := none,
        is_sequential := false,
        ordering_encoding_size := 1 },
    predicates := [] }

/-- A one-column expression holding the values 1, NULL, 3, ordered
ascending by that column with the given null placement. -/
def exprNullPlacement (nl : Bool) : BigFramesExpr :=
  { table := .base ["x"] [[some (.i 1)], [none], [some (.i 3)]],
    columns := [("x", .col ("x"))],
    meta_columns := [],
    ordering :=
      { ordering_value_columns := [{ column_id := "x", direction := .ASC, na_last := nl }],
        ordering_id_column := none,
        is_sequential := false,
        ordering_encoding_size := 1 },
    predicates := [] }

/-- A sequential expression: one value column plus a materialized
ordering-id meta column holding 0..n-1, with `is_sequential` set. -/
def exprSequential (rows : List (List Cell)) : BigFramesExpr :=
  { table := .base ["x", "leanframe_ordering_id"] rows,
    columns := [("x", .col ("x"))],
    meta_columns := [("leanframe_ordering_id", .col ("leanframe_ordering_id"))],
    ordering :=
      { ordering_value_columns := [],
        ordering_id_column := some { column_id := "leanframe_ordering_id" },
        is_sequential := true,
        ordering_encoding_size := 1 },
    predicates := [] }

/-- Three-row sequential source A of the union witness. -/
def exprConcatA : BigFramesExpr := exprSequential
  [[some (.i 10), some (.i 0)], [some (.i 11), some (.i 1)], [some (.i 12), some (.i 2)]]

/-- Two-row sequential source B of the union witness. -/
def exprConcatB : BigFramesExpr := exprSequential
  [[some (.i 20), some (.i 0)], [some (.i 21), some (.i 1)]]

/-- The compiled (`ordered_col` mode) table of union source A. -/
def tblConcatA : TableExpr :=
  (exprConcatA.to_ibis_expr .ordered_col ORDER_ID_COLUMN).toOption.getD (.base [] [])

/-- The compiled (`ordered_col` mode) table of union source B. -/
def tblConcatB : TableExpr :=
  (exprConcatB.to_ibis_expr .ordered_col ORDER_ID_COLUMN).toOption.getD (.base [] [])

/-- Five-row one-column table for the window witness. -/
def wTable5 : Table :=
  ⟨["x"], [[some (.i 1)], [some (.i 2)], [some (.i 3)], [some (.i 4)], [some (.i 5)]]⟩

/-- Cumulative window (unbounded preceding, zero following) ordered by
the column, as a `WindowSpec` with explicit bounds would produce. -/
def wWindow : WindowDef :=
  { order_by := [(.col ("x"), true)], group_by := [],
    preceding := none, following := some 0 }

/-- A concrete window operator whose raw result is the constant 999 —
masking must yield NULL regardless of it. -/
def wOp999 : WindowOp :=
  { skips_nulls := false, asIbisW := fun _ _ _ _ _ => .lit (.i 999) }

/-! ## Theorems -/

/-- Claim C10: for every expression `e`, `e.concat([])` returns `e`
itself unchanged — no union, no re-encoding of ordering ids, and no
change to the ordering spec. -/
theorem concat_empty_returns_self (e : BigFramesExpr) : e.concat [] = .ok e := rfl

/-- Claim C9: reducing zero predicates is rejected with an error rather
than silently returning true, and the reduced predicate property
computes the AND-fold of the predicates exactly when at least one
predicate is present, and is absent otherwise — so the compilation path
never requests the empty reduction. -/
theorem empty_predicate_reduction_rejected :
    (_reduce_predicate_list [] = .error ("Cannot reduce empty list of predicates")) ∧
    (∀ e : BigFramesExpr,
      (e.predicates = [] → e.reduced_predicate = none) ∧
      (∀ p ps, e.predicates = p :: ps →
        e.reduced_predicate = some (PREDICATE_COLUMN, List.foldl IbisExpr.andE p ps) ∧
        _reduce_predicate_list e.predicates
          = .ok (List.foldl IbisExpr.andE p ps))) := by
  refine ⟨rfl, fun e => ⟨fun h => ?_, fun p ps h => ?_⟩⟩
  · simp [BigFramesExpr.reduced_predicate, h]
  · simp [BigFramesExpr.reduced_predicate, _reduce_predicate_list, h]

/-- Witness for claim C9 at a nonempty predicate list. -/
theorem empty_predicate_reduction_rejected_witness :
    (exprABC.filter (.col ("a"))).reduced_predicate
      = some (PREDICATE_COLUMN, .col ("a")) :=
  ((empty_predicate_reduction_rejected.2 (exprABC.filter (.col ("a")))).2
    (.col ("a")) [] rfl).1

/-- Claim C4: one `filter` call on an expression whose ordering is
sequential with a defined ordering id appends the predicate to the
predicate list and demotes `is_sequential` to false while the ordering
id column remains defined (and unchanged). -/
theorem filter_demotes_sequential (e : BigFramesExpr) (p : IbisExpr)
    (hseq : e.ordering.is_sequential = true)
    (hid : e.ordering.ordering_id ≠ none) :
    (e.filter p).predicates = e.predicates ++ [p] ∧
    (e.filter p).ordering.is_sequential = false ∧
    (e.filter p).ordering.ordering_id = e.ordering.ordering_id ∧
    (e.filter p).ordering.ordering_id ≠ none := by
  exact ⟨rfl, rfl, rfl, hid⟩

/-- Witness for claim C4 at a concrete sequential expression. -/
theorem filter_demotes_sequential_witness :
    (exprConcatA.filter (.col ("x"))).predicates = [.col ("x")] ∧
    (exprConcatA.filter (.col ("x"))).ordering.is_sequential = false ∧
    (exprConcatA.filter (.col ("x"))).ordering.ordering_id ≠ none := by
  have h := filter_demotes_sequential exprConcatA (.col ("x")) (by decide) (by decide)
  exact ⟨h.1, h.2.1, h.2.2.2⟩

/-- Claim C3: `project_offsets` returns `self` unchanged when the
ordering is already sequential, and applying it twice equals applying it
once (the once-applied result, when it exists, is sequential, so the
second application is the identity; errors propagate equally). -/
theorem project_offsets_idempotent (e : BigFramesExpr) :
    (e.ordering.is_sequential = true → e.project_offsets = .ok e) ∧
    e.project_offsets.bind BigFramesExpr.project_offsets = e.project_offsets := by
  have hpo : ∀ x : BigFramesExpr, x.ordering.is_sequential = true →
      x.project_offsets = .ok x := by
    intro x hx
    simp [BigFramesExpr.project_offsets, hx]
  refine ⟨hpo e, ?_⟩
  by_cases hseq : e.ordering.is_sequential = true
  · rw [hpo e hseq]
    exact hpo e hseq
  · have hseq2 : e.ordering.is_sequential = false := by
      cases h : e.ordering.is_sequential
      · rfl
      · exact absurd h hseq
    cases hc : e.to_ibis_expr .offset_col ORDER_ID_COLUMN with
    | error s =>
      simp [BigFramesExpr.project_offsets, hseq2, hc, Except.bind, Bind.bind]
    | ok t =>
      have : e.project_offsets = .ok
          { table := t,
            columns := e.columnNames.map (fun n => (n, IbisExpr.col n)),
            meta_columns := [(ORDER_ID_COLUMN, IbisExpr.col ORDER_ID_COLUMN)],
            ordering :=
              { ordering_value_columns := [],
                ordering_id_column := some { column_id := ORDER_ID_COLUMN },
                is_sequential := true,
                ordering_encoding_size := DEFAULT_ORDERING_ID_LENGTH },
            predicates := [] } := by
        simp [BigFramesExpr.project_offsets, hseq2, hc, Except.bind, Bind.bind]
      rw [this]
      exact hpo _ rfl

/-- Witness for claim C3: the no-op branch at a concrete sequential
expression, and idempotence at a concrete non-sequential expression. -/
theorem project_offsets_idempotent_witness :
    exprConcatA.project_offsets = .ok exprConcatA ∧
    exprABC.project_offsets.bind BigFramesExpr.project_offsets
      = exprABC.project_offsets :=
  ⟨(project_offsets_idempotent exprConcatA).1 rfl,
   (project_offsets_idempotent exprABC).2⟩

/-- Claim C6 (code bug): `Block.__init__` assigns only `_table`,
`_columns` and `_order_by_columns`, while `Block.shape` reads
`self._expr`, which no code path assigns — so `shape()` on every Block
the class can construct raises AttributeError instead of returning the
(length, width) dimensions. -/
theorem block_shape_attribute_error (t : TableExpr)
    (cols : List (String × IbisExpr)) (obc : List (IbisExpr × Bool)) :
    (Block.init t cols obc).shape
      = .error ("AttributeError: Block object has no attribute _expr") := rfl

/-- Claim C7: `promote_offsets` terminates on every expression
satisfying the documented ordering invariant (`is_sequential` implies a
defined ordering id): a recursion budget of 2 yields a result, any
larger budget yields the same result, and in the recursive case the
expression returned by `project_offsets` is sequential with a defined
ordering id, so the retried call takes the non-recursive branch. -/
theorem promote_offsets_terminates (e : BigFramesExpr) (id : String)
    (hinv : e.ordering.is_sequential = true → e.ordering.ordering_id ≠ none) :
    (BigFramesExpr.promote_offsets_fuel 2 e id).isSome = true ∧
    (∀ fuel, BigFramesExpr.promote_offsets_fuel (fuel + 2) e id
      = BigFramesExpr.promote_offsets_fuel 2 e id) ∧
    ((e.ordering.is_sequential = false ∨ e.ordering.ordering_id = none) →
      ∀ e2, e.project_offsets = .ok e2 →
        e2.ordering.is_sequential = true ∧ e2.ordering.ordering_id ≠ none) := by
  have hdirect : ∀ f x idc, x.ordering.is_sequential = true →
      x.ordering.ordering_id ≠ none →
      BigFramesExpr.promote_offsets_fuel (f + 1) x idc
        = (match x.ordering.ordering_id with
           | none => some (.error ("unreachable: ordering id missing"))
           | some oid =>
             some (do
               let m ← x._get_meta_column oid
               Except.ok { x with columns := (idc, m) :: x.columns })) := by
    intro f x idc hs hid
    have hguard : (x.ordering.is_sequential = false ∨ x.ordering.ordering_id = none)
        = False := by
      simp [hs, hid]
    simp [BigFramesExpr.promote_offsets_fuel, hguard]
  by_cases hg : e.ordering.is_sequential = false ∨ e.ordering.ordering_id = none
  · -- recursive case
    have hseq : e.ordering.is_sequential = false := by
      rcases hg with h | h
      · exact h
      · cases hs : e.ordering.is_sequential
        · rfl
        · exact absurd (hinv hs) (fun hne => hne h)
    have hstep : ∀ e2, e.project_offsets = .ok e2 →
        e2.ordering.is_sequential = true ∧ e2.ordering.ordering_id ≠ none := by
      intro e2 h2
      rw [BigFramesExpr.project_offsets] at h2
      simp [hseq, Except.bind, Bind.bind] at h2
      cases hc : e.to_ibis_expr .offset_col ORDER_ID_COLUMN with
      | error s =>
        rw [hc] at h2
        simp at h2
      | ok t =>
        rw [hc] at h2
        simp at h2
        rw [← h2]
        exact ⟨rfl, by simp [ExpressionOrdering.ordering_id]⟩
    refine ⟨?_, ?_, fun _ => hstep⟩
    · have h1 : BigFramesExpr.promote_offsets_fuel 2 e id
          = match e.project_offsets with
            | .error s => some (.error s)
            | .ok e2 => BigFramesExpr.promote_offsets_fuel 1 e2 id := by
        simp [BigFramesExpr.promote_offsets_fuel, hg]
      rw [h1]
      cases hp : e.project_offsets with
      | error s => rfl
      | ok e2 =>
        have h2 := hstep e2 hp
        show (BigFramesExpr.promote_offsets_fuel (0 + 1) e2 id).isSome = true
        rw [hdirect 0 e2 id h2.1 h2.2]
        cases hi : e2.ordering.ordering_id with
        | none => exact absurd hi h2.2
        | some oid => rfl
    · intro fuel
      have unf : ∀ f, BigFramesExpr.promote_offsets_fuel (f + 1) e id
          = match e.project_offsets with
            | .error s => some (.error s)
            | .ok e2 => BigFramesExpr.promote_offsets_fuel f e2 id := by
        intro f
        simp [BigFramesExpr.promote_offsets_fuel, hg]
      rw [unf (fuel + 1), unf 1]
      cases hp : e.project_offsets with
      | error s => rfl
      | ok e2 =>
        have h2 := hstep e2 hp
        show BigFramesExpr.promote_offsets_fuel (fuel + 1) e2 id
          = BigFramesExpr.promote_offsets_fuel (0 + 1) e2 id
        rw [hdirect fuel e2 id h2.1 h2.2, hdirect 0 e2 id h2.1 h2.2]
  · -- direct case
    have hs : e.ordering.is_sequential = true := by
      cases h : e.ordering.is_sequential
      · exact absurd (Or.inl rfl) (h ▸ hg)
      · rfl
    have hid : e.ordering.ordering_id ≠ none := fun h => hg (Or.inr h)
    refine ⟨?_, ?_, fun h _ _ => absurd h hg⟩
    · rw [hdirect 1 e id hs hid]
      cases hi : e.ordering.ordering_id with
      | none => exact absurd hi hid
      | some oid => rfl
    · intro fuel
      rw [hdirect (fuel + 1) e id hs hid, hdirect 1 e id hs hid]

/-- Witness for claim C7 at a concrete non-sequential expression (the
recursive case) — the budget of 2 suffices and is stable. -/
theorem promote_offsets_terminates_witness :
    (BigFramesExpr.promote_offsets_fuel 2 exprABC ("idx")).isSome = true ∧
    BigFramesExpr.promote_offsets_fuel 7 exprABC ("idx")
      = BigFramesExpr.promote_offsets_fuel 2 exprABC ("idx") :=
  ⟨(promote_offsets_terminates exprABC ("idx") (by decide)).1,
   (promote_offsets_terminates exprABC ("idx") (by decide)).2.1 5⟩

/-- Claim C1 (code bug): the hide loop of `drop_columns` rebinds
`expr = self._hide_column(...)` from `self` on every iteration, so when
two ordering-dependency columns are dropped only the last one is hidden.
At the concrete input `exprABC` (ordered by value columns `a` then `b`):
the original expression compiles under `order_by` mode; dropping both
`a` and `b` succeeds, but compiling the result under `order_by` mode
fails because the ordering still references the dropped column `a` —
instead of producing the identical row order the claim requires.
Dropping the single ordering dependency `a` works as specified: the
compiled row order is identical (the surviving columns are those of the
original compilation minus `a`). -/
theorem drop_columns_hide_loop_bug :
    ((exprABC.to_ibis_expr .order_by ORDER_ID_COLUMN).map TableExpr.eval
      = .ok ⟨["a", "b", "c"],
             [[some (.i 1), some (.i 10), some (.i 100)],
              [some (.i 2), some (.i 20), some (.i 200)]]⟩) ∧
    ((exprABC.drop_columns ["a", "b"]).isOk = true) ∧
    ((exprABC.drop_columns ["a", "b"]).toOption.map
        (fun e2 => e2.to_ibis_expr .order_by ORDER_ID_COLUMN)
      = some (.error ("Column name a not in set of values"))) ∧
    ((exprABC.drop_columns ["a"]).toOption.map
        (fun e2 => (e2.to_ibis_expr .order_by ORDER_ID_COLUMN).map TableExpr.eval)
      = some ((exprABC.to_ibis_expr .order_by ORDER_ID_COLUMN).map
          (fun t => (TableExpr.eval t).dropCols ["a"]))) := by
  refine ⟨by decide, by decide, by decide, by decide⟩

/-- Claim C5: when an ordering key requests a null placement that
disagrees with its direction (nulls last while ascending, or nulls
first while descending), the conversion prepends a synthetic is-null
sort key directly ahead of that key, ascending respectively descending,
forcing the requested placement; and on the concrete column values
1, NULL, 3 ordered ascending, the compiled row order is NULL,1,3 with
`nulls_last = false` and 1,3,NULL with `nulls_last = true`. -/
theorem null_placement (lookup : String → Option IbisExpr)
    (oc : OrderingColumnReference) (c : IbisExpr)
    (hc : lookup oc.column_id = some c) :
    (oc.na_last = true → oc.direction = .ASC →
      _convert_ordering_to_table_values lookup [oc]
        = .ok [(IbisExpr.isNullE c, true), (c, true)]) ∧
    (oc.na_last = false → oc.direction = .DESC →
      _convert_ordering_to_table_values lookup [oc]
        = .ok [(IbisExpr.isNullE c, false), (c, false)]) ∧
    (((exprNullPlacement false).to_ibis_expr .order_by ORDER_ID_COLUMN).map
        TableExpr.eval
      = .ok ⟨["x"], [[none], [some (.i 1)], [some (.i 3)]]⟩) ∧
    (((exprNullPlacement true).to_ibis_expr .order_by ORDER_ID_COLUMN).map
        TableExpr.eval
      = .ok ⟨["x"], [[some (.i 1)], [some (.i 3)], [none]]⟩) := by
  refine ⟨?_, ?_, by decide, by decide⟩
  · intro hnl hd
    simp [_convert_ordering_to_table_values, hc, hnl, hd,
      OrderingDirection.is_ascending, List.mapM.loop,
      Except.bind, Bind.bind, Pure.pure, Except.pure]
  · intro hnl hd
    simp [_convert_ordering_to_table_values, hc, hnl, hd,
      OrderingDirection.is_ascending, List.mapM.loop,
      Except.bind, Bind.bind, Pure.pure, Except.pure]

/-- Witness for claim C5: the synthetic is-null key at a concrete
disagreeing ordering key. -/
theorem null_placement_witness :
    _convert_ordering_to_table_values
        (fun n => if n = "x" then some (IbisExpr.col ("x")) else none)
        [{ column_id := "x", direction := .ASC, na_last := true }]
      = .ok [(IbisExpr.isNullE (IbisExpr.col ("x")), true), (IbisExpr.col ("x"), true)] :=
  (null_placement (fun n => if n = "x" then some (IbisExpr.col ("x")) else none)
    { column_id := "x", direction := .ASC, na_last := true }
    (IbisExpr.col ("x")) (by decide)).1 rfl rfl

/-- Evaluation equation: CASE WHEN takes the branch value exactly when
the condition evaluates to boolean TRUE. -/
theorem evalAt_caseWhen (T : Table) (c v e : IbisExpr) (i : Nat) :
    IbisExpr.evalAt T (.caseWhen c v e) i
      = if IbisExpr.evalAt T c i = some (.b true) then IbisExpr.evalAt T v i
        else IbisExpr.evalAt T e i := rfl

/-- Evaluation equation: the comparison operator on evaluated cells. -/
theorem evalAt_ltE (T : Table) (a b : IbisExpr) (i : Nat) :
    IbisExpr.evalAt T (.ltE a b) i
      = (match IbisExpr.evalAt T a i, IbisExpr.evalAt T b i with
        | some (.i x), some (.i y) => some (.b (decide (x < y)))
        | some (.s x), some (.s y) => some (.b (lexLt x.data y.data))
        | _, _ => none) := rfl

/-- Evaluation equation: IS NULL of the evaluated operand. -/
theorem evalAt_isNullE (T : Table) (a : IbisExpr) (i : Nat) :
    IbisExpr.evalAt T (.isNullE a) i
      = some (.b (IbisExpr.evalAt T a i).isNone) := rfl

/-- The count window operator evaluates to the non-null count of the
window frame. -/
theorem evalAt_count_op (T : Table) (column : IbisExpr) (w : WindowDef) (i : Nat) :
    IbisExpr.evalAt T (count_op.asIbisW column (KeyList.ofList w.order_by)
      (ExprList.ofList w.group_by) w.preceding w.following) i
      = some (.i (Int.ofNat (windowNonNullCount T column w i))) := rfl

/-- Claim C8: for a window operation with `min_periods = k > 0`, every
output row whose window frame holds fewer than `k` non-null input
values evaluates to NULL, whatever the underlying operator would have
produced; and `min_periods = 0` adds no minimum-count mask (the built
expression is the bare operator, or only the null-input mask when the
operator skips nulls). -/
theorem window_min_periods_mask (column : IbisExpr) (op : WindowOp) (w : WindowDef)
    (k : Nat) (T : Table) (i : Nat) :
    (0 < k → windowNonNullCount T column w i < k →
      IbisExpr.evalAt T (window_op_expr column op w k) i = none) ∧
    window_op_expr column op w 0
      = (if op.skips_nulls then
          IbisExpr.caseWhen (IbisExpr.isNullE column) IbisExpr.nullLit
            (op.asIbisW column (KeyList.ofList w.order_by) (ExprList.ofList w.group_by)
              w.preceding w.following)
        else
          op.asIbisW column (KeyList.ofList w.order_by) (ExprList.ofList w.group_by)
            w.preceding w.following) := by
  constructor
  · intro hk hc
    have hkne : ¬ k = 0 := by omega
    have hcond : IbisExpr.evalAt T
        (IbisExpr.ltE (count_op.asIbisW column (KeyList.ofList w.order_by)
          (ExprList.ofList w.group_by) w.preceding w.following)
          (IbisExpr.lit (.i (Int.ofNat k)))) i = some (.b true) := by
      rw [evalAt_ltE, evalAt_count_op]
      have : IbisExpr.evalAt T (IbisExpr.lit (.i (Int.ofNat k))) i
          = some (.i (Int.ofNat k)) := rfl
      rw [this]
      simp only [Option.some.injEq]
      simp [hc]
    cases hsn : op.skips_nulls with
    | false =>
      have hshape : window_op_expr column op w k
          = IbisExpr.caseWhen
              (IbisExpr.ltE (count_op.asIbisW column (KeyList.ofList w.order_by)
                (ExprList.ofList w.group_by) w.preceding w.following)
                (IbisExpr.lit (.i (Int.ofNat k)))) IbisExpr.nullLit
              (op.asIbisW column (KeyList.ofList w.order_by)
                (ExprList.ofList w.group_by) w.preceding w.following) := by
        simp [window_op_expr, hsn, hkne]
      rw [hshape, evalAt_caseWhen, hcond]
      simp
      rfl
    | true =>
      have hshape : window_op_expr column op w k
          = IbisExpr.caseWhen (IbisExpr.isNullE column) IbisExpr.nullLit
              (IbisExpr.caseWhen
                (IbisExpr.ltE (count_op.asIbisW column (KeyList.ofList w.order_by)
                  (ExprList.ofList w.group_by) w.preceding w.following)
                  (IbisExpr.lit (.i (Int.ofNat k)))) IbisExpr.nullLit
                (op.asIbisW column (KeyList.ofList w.order_by)
                  (ExprList.ofList w.group_by) w.preceding w.following)) := by
        simp [window_op_expr, hsn, hkne]
      rw [hshape, evalAt_caseWhen]
      by_cases hnull : IbisExpr.evalAt T (IbisExpr.isNullE column) i = some (.b true)
      · rw [if_pos hnull]
        rfl
      · rw [if_neg hnull, evalAt_caseWhen, hcond]
        simp
        rfl
  · cases hsn : op.skips_nulls <;> simp [window_op_expr, hsn]

/-- Witness for claim C8: on a five-row cumulative window with
`min_periods = 3`, the first two output rows (frame sizes 1 and 2) are
NULL even though the underlying operator always produces 999. -/
theorem window_min_periods_mask_witness :
    windowNonNullCount wTable5 (.col ("x")) wWindow 0 < 3 ∧
    windowNonNullCount wTable5 (.col ("x")) wWindow 1 < 3 ∧
    IbisExpr.evalAt wTable5 (window_op_expr (.col ("x")) wOp999 wWindow 3) 0 = none ∧
    IbisExpr.evalAt wTable5 (window_op_expr (.col ("x")) wOp999 wWindow 3) 1 = none :=
  ⟨by decide, by decide,
   (window_min_periods_mask (.col ("x")) wOp999 wWindow 3 wTable5 0).1
     (by decide) (by decide),
   (window_min_periods_mask (.col ("x")) wOp999 wWindow 3 wTable5 1).1
     (by decide) (by decide)⟩

/-! Arithmetic facts about decimal digit strings, used by claim C2. -/

/-- The fuel of `decCharsAux` is irrelevant once it exceeds the value. -/
theorem decCharsAux_fuel : ∀ f g n, n < f → n < g →
    decCharsAux f n = decCharsAux g n := by
  intro f
  induction f with
  | zero => intro g n h; omega
  | succ f ih =>
    intro g n hf hg
    cases g with
    | zero => omega
    | succ g =>
      by_cases h10 : n < 10
      · simp [decCharsAux, h10]
      · have hn : 10 ≤ n := by omega
        have hdiv : n / 10 < n := Nat.div_lt_self (by omega) (by omega)
        simp only [decCharsAux, if_neg h10]
        rw [ih g (n / 10) (by omega) (by omega)]

/-- Unfolding equation of `decChars`. -/
theorem decChars_eq (n : Nat) :
    decChars n = if n < 10 then [Nat.digitChar n]
      else decChars (n / 10) ++ [Nat.digitChar (n % 10)] := by
  by_cases h10 : n < 10
  · simp [decChars, decCharsAux, h10]
  · have hdiv : n / 10 < n := Nat.div_lt_self (by omega) (by omega)
    simp only [decChars, decCharsAux, if_neg h10]
    rw [decCharsAux_fuel n (n / 10 + 1) (n / 10) hdiv (by omega)]
    rfl

/-- The decimal representation fits in `k + 1` characters exactly for
values below `10 ^ (k + 1)`. -/
theorem decChars_length_le_iff : ∀ n k, (decChars n).length ≤ k + 1 ↔ n < 10 ^ (k + 1) := by
  intro n
  induction n using Nat.strong_induction_on with
  | _ n ih =>
    intro k
    rw [decChars_eq]
    by_cases h10 : n < 10
    · simp only [if_pos h10, List.length_singleton]
      constructor
      · intro _
        calc n < 10 := h10
        _ = 10 ^ 1 := by norm_num
        _ ≤ 10 ^ (k + 1) := Nat.pow_le_pow_right (by omega) (by omega)
      · intro _; omega
    · have hdiv : n / 10 < n := Nat.div_lt_self (by omega) (by omega)
      simp only [if_neg h10, List.length_append, List.length_singleton]
      have hpos : 1 ≤ (decChars (n / 10)).length := by
        rw [decChars_eq]
        by_cases hd : n / 10 < 10
        · simp [hd]
        · simp [hd]
      cases k with
      | zero =>
        have hten : (10 : Nat) ^ (0 + 1) = 10 := by norm_num
        constructor
        · intro h
          exfalso
          omega
        · intro h
          exfalso
          omega
      | succ k =>
        have := ih (n / 10) hdiv k
        constructor
        · intro h
          have hlt : n / 10 < 10 ^ (k + 1) := this.mp (by omega)
          have : n < 10 ^ (k + 1) * 10 := (Nat.div_lt_iff_lt_mul (by omega)).mp hlt
          calc n < 10 ^ (k + 1) * 10 := this
          _ = 10 ^ (k + 1 + 1) := by ring
        · intro h
          have hlt : n / 10 < 10 ^ (k + 1) := by
            rw [Nat.div_lt_iff_lt_mul (by omega)]
            calc n < 10 ^ (k + 1 + 1) := h
            _ = 10 ^ (k + 1) * 10 := by ring
          have := this.mpr hlt
          omega

/-- Decimal strings are never empty. -/
theorem decChars_length_pos (n : Nat) : 1 ≤ (decChars n).length := by
  rw [decChars_eq]
  by_cases h10 : n < 10
  · simp [h10]
  · simp [h10]

/-- Peeling the least significant digit off the fixed-width
representation. -/
theorem msbChars_snoc : ∀ w n, n < 10 ^ (w + 1) →
    msbChars (w + 1) n = msbChars w (n / 10) ++ [Nat.digitChar (n % 10)] := by
  intro w
  induction w with
  | zero =>
    intro n hn
    have h10 : n < 10 := by simpa using hn
    simp [msbChars, Nat.mod_eq_of_lt h10]
  | succ w ih =>
    intro n hn
    have hmod : n % 10 ^ (w + 1) < 10 ^ (w + 1) :=
      Nat.mod_lt _ (Nat.pos_pow_of_pos _ (by omega))
    have e1 : n / 10 / 10 ^ w = n / 10 ^ (w + 1) := by
      rw [Nat.div_div_eq_div_mul]
      congr 1
      ring
    have e2 : n % 10 ^ (w + 1) % 10 = n % 10 := by
      apply Nat.mod_mod_of_dvd
      exact Dvd.intro (10 ^ w) (by ring)
    have e3 : n % 10 ^ (w + 1) / 10 = n / 10 % 10 ^ w := by
      have : (10 : Nat) ^ (w + 1) = 10 * 10 ^ w := by ring
      rw [this, Nat.mod_mul_right_div_self]
    calc msbChars (w + 2) n
        = Nat.digitChar (n / 10 ^ (w + 1)) :: msbChars (w + 1) (n % 10 ^ (w + 1)) := rfl
    _ = Nat.digitChar (n / 10 ^ (w + 1)) ::
          (msbChars w (n % 10 ^ (w + 1) / 10) ++ [Nat.digitChar (n % 10 ^ (w + 1) % 10)]) := by
        rw [ih _ hmod]
    _ = Nat.digitChar (n / 10 / 10 ^ w) ::
          (msbChars w (n / 10 % 10 ^ w) ++ [Nat.digitChar (n % 10)]) := by
        rw [e1, e2, e3]
    _ = msbChars (w + 1) (n / 10) ++ [Nat.digitChar (n % 10)] := rfl

/-- A value with exactly `w + 1` decimal digits has `msbChars (w + 1)`
as its decimal representation. -/
theorem decChars_eq_msbChars : ∀ n w, 10 ^ w ≤ n → n < 10 ^ (w + 1) →
    decChars n = msbChars (w + 1) n := by
  intro n
  induction n using Nat.strong_induction_on with
  | _ n ih =>
    intro w hlo hhi
    by_cases h10 : n < 10
    · have hw : w = 0 := by
        by_contra hw
        have : 10 ≤ 10 ^ w := by
          calc (10 : Nat) = 10 ^ 1 := by norm_num
          _ ≤ 10 ^ w := Nat.pow_le_pow_right (by omega) (by omega)
        omega
      subst hw
      rw [decChars_eq, if_pos h10]
      simp [msbChars, Nat.mod_eq_of_lt h10]
    · have hw : 1 ≤ w := by
        by_contra hw
        have : w = 0 := by omega
        subst this
        simp at hhi
        omega
      obtain ⟨w, rfl⟩ : ∃ w2, w = w2 + 1 := ⟨w - 1, by omega⟩
      have hdiv : n / 10 < n := Nat.div_lt_self (by omega) (by omega)
      have hlo2 : 10 ^ w ≤ n / 10 := by
        rw [Nat.le_div_iff_mul_le (by omega)]
        calc 10 ^ w * 10 = 10 ^ (w + 1) := by ring
        _ ≤ n := hlo
      have hhi2 : n / 10 < 10 ^ (w + 1) := by
        rw [Nat.div_lt_iff_lt_mul (by omega)]
        calc n < 10 ^ (w + 1 + 1) := hhi
        _ = 10 ^ (w + 1) * 10 := by ring
      rw [decChars_eq, if_neg h10, ih (n / 10) hdiv w hlo2 hhi2,
          msbChars_snoc (w + 1) n hhi]

/-- For values inside the width, Python zfill produces exactly the
fixed-width representation `msbChars`. -/
theorem zfillNat_eq_msbChars : ∀ w n, n < 10 ^ (w + 1) →
    zfillNat (w + 1) n = msbChars (w + 1) n := by
  intro w
  induction w with
  | zero =>
    intro n hn
    have h10 : n < 10 := by simpa using hn
    have hlen : (decChars n).length = 1 := by
      rw [decChars_eq, if_pos h10]
      rfl
    rw [zfillNat, hlen]
    simp [msbChars, Nat.mod_eq_of_lt h10, decChars_eq, h10]
  | succ w ih =>
    intro n hn
    by_cases hlo : n < 10 ^ (w + 1)
    · have hlen : (decChars n).length ≤ w + 1 := (decChars_length_le_iff n w).mpr hlo
      have hz : zfillNat (w + 2) n = ('0') :: zfillNat (w + 1) n := by
        rw [zfillNat, zfillNat]
        have : w + 2 - (decChars n).length = (w + 1 - (decChars n).length) + 1 := by
          omega
        rw [this, List.replicate_succ]
        rfl
      have hdiv : n / 10 ^ (w + 1) = 0 := Nat.div_eq_of_lt hlo
      have hmod : n % 10 ^ (w + 1) = n := Nat.mod_eq_of_lt hlo
      rw [hz, ih n hlo]
      show ('0') :: msbChars (w + 1) n = msbChars (w + 2) n
      have : msbChars (w + 2) n
          = Nat.digitChar (n / 10 ^ (w + 1)) :: msbChars (w + 1) (n % 10 ^ (w + 1)) := rfl
      rw [this, hdiv, hmod]
      rfl
    · have hlen : (decChars n).length = w + 2 := by
        have h1 : (decChars n).length ≤ w + 2 := (decChars_length_le_iff n (w + 1)).mpr hn
        have h2 : ¬ (decChars n).length ≤ w + 1 := by
          intro hc
          exact hlo ((decChars_length_le_iff n w).mp hc)
        omega
      rw [zfillNat, hlen]
      simp only [Nat.sub_self, List.replicate_zero, List.nil_append]
      exact decChars_eq_msbChars n (w + 1) (by omega) hn

/-- Digit characters of decimal digits compare like the digits. -/
theorem digitChar_lt_iff :
    ∀ a < 10, ∀ b < 10, (Nat.digitChar a < Nat.digitChar b ↔ a < b) := by decide

/-- Digit characters of decimal digits are distinct for distinct digits. -/
theorem digitChar_inj :
    ∀ a < 10, ∀ b < 10, (Nat.digitChar a = Nat.digitChar b ↔ a = b) := by decide

/-- Splitting a value at `10 ^ q`: numeric order is the lexicographic
order of the (quotient, remainder) pairs. -/
theorem lt_iff_div_mod_lt (q m n : Nat) (hq : 0 < q) :
    m < n ↔ (m / q < n / q ∨ (m / q = n / q ∧ m % q < n % q)) := by
  have hm := Nat.div_add_mod m q
  have hn := Nat.div_add_mod n q
  have hmr : m % q < q := Nat.mod_lt _ hq
  have hnr : n % q < q := Nat.mod_lt _ hq
  constructor
  · intro h
    rcases Nat.lt_trichotomy (m / q) (n / q) with hd | hd | hd
    · exact Or.inl hd
    · refine Or.inr ⟨hd, ?_⟩
      by_contra hc
      push_neg at hc
      have : n ≤ m := by
        calc n = q * (n / q) + n % q := hn.symm
        _ ≤ q * (m / q) + m % q := by rw [hd]; omega
        _ = m := hm
      omega
    · have : n < m := by
        calc n = q * (n / q) + n % q := hn.symm
        _ < q * (n / q) + q := by omega
        _ = q * (n / q + 1) := by ring
        _ ≤ q * (m / q) := Nat.mul_le_mul_left q (by omega)
        _ ≤ q * (m / q) + m % q := by omega
        _ = m := hm
      omega
  · intro h
    rcases h with hd | ⟨hd, hr⟩
    · calc m = q * (m / q) + m % q := hm.symm
      _ < q * (m / q) + q := by omega
      _ = q * (m / q + 1) := by ring
      _ ≤ q * (n / q) := Nat.mul_le_mul_left q (by omega)
      _ ≤ q * (n / q) + n % q := by omega
      _ = n := hn
    · calc m = q * (m / q) + m % q := hm.symm
      _ < q * (n / q) + n % q := by rw [hd]; omega
      _ = n := hn

/-- Fixed-width decimal strings compare lexicographically exactly like
the values they encode. -/
theorem lexLt_msbChars : ∀ w m n, m < 10 ^ w → n < 10 ^ w →
    (lexLt (msbChars w m) (msbChars w n) = true ↔ m < n) := by
  intro w
  induction w with
  | zero =>
    intro m n hm hn
    simp only [pow_zero, Nat.lt_one_iff] at hm hn
    subst hm; subst hn
    simp [msbChars, lexLt]
  | succ w ih =>
    intro m n hm hn
    have hmd : m / 10 ^ w < 10 := by
      rw [Nat.div_lt_iff_lt_mul (Nat.pos_pow_of_pos _ (by omega))]
      calc m < 10 ^ (w + 1) := hm
      _ = 10 * 10 ^ w := by ring
    have hnd : n / 10 ^ w < 10 := by
      rw [Nat.div_lt_iff_lt_mul (Nat.pos_pow_of_pos _ (by omega))]
      calc n < 10 ^ (w + 1) := hn
      _ = 10 * 10 ^ w := by ring
    have hmm : m % 10 ^ w < 10 ^ w := Nat.mod_lt _ (Nat.pos_pow_of_pos _ (by omega))
    have hnm : n % 10 ^ w < 10 ^ w := Nat.mod_lt _ (Nat.pos_pow_of_pos _ (by omega))
    show (lexLt (Nat.digitChar (m / 10 ^ w) :: msbChars w (m % 10 ^ w))
      (Nat.digitChar (n / 10 ^ w) :: msbChars w (n % 10 ^ w)) = true) ↔ m < n
    rw [lexLt]
    rw [lt_iff_div_mod_lt (10 ^ w) m n (Nat.pos_pow_of_pos _ (by omega))]
    by_cases h1 : Nat.digitChar (m / 10 ^ w) < Nat.digitChar (n / 10 ^ w)
    · simp only [if_pos h1]
      have := (digitChar_lt_iff _ hmd _ hnd).mp h1
      simp [this]
    · by_cases h2 : Nat.digitChar (n / 10 ^ w) < Nat.digitChar (m / 10 ^ w)
      · simp only [if_neg h1, if_pos h2]
        have hgt := (digitChar_lt_iff _ hnd _ hmd).mp h2
        constructor
        · intro h; cases h
        · intro h
          rcases h with h | ⟨h, _⟩
          · omega
          · omega
      · simp only [if_neg h1, if_neg h2]
        have heq : m / 10 ^ w = n / 10 ^ w := by
          rcases Nat.lt_trichotomy (m / 10 ^ w) (n / 10 ^ w) with hd | hd | hd
          · exact absurd ((digitChar_lt_iff _ hmd _ hnd).mpr hd) h1
          · exact hd
          · exact absurd ((digitChar_lt_iff _ hnd _ hmd).mpr hd) h2
        rw [ih _ _ hmm hnm]
        constructor
        · intro h
          exact Or.inr ⟨heq, h⟩
        · intro h
          rcases h with h | ⟨_, h⟩
          · omega
          · exact h

/-- A strictly smaller equal-length left part decides the lexicographic
comparison of concatenations. -/
theorem lexLt_append_left : ∀ (x1 x2 y1 y2 : List Char), x1.length = x2.length →
    lexLt x1 x2 = true → lexLt (x1 ++ y1) (x2 ++ y2) = true := by
  intro x1
  induction x1 with
  | nil =>
    intro x2 y1 y2 hlen h
    cases x2 with
    | nil => simp [lexLt] at h
    | cons b bs => simp at hlen
  | cons a xs ih =>
    intro x2 y1 y2 hlen h
    cases x2 with
    | nil => simp at hlen
    | cons b bs =>
      simp only [List.cons_append]
      rw [lexLt] at h ⊢
      by_cases h1 : a < b
      · simp [h1]
      · by_cases h2 : b < a
        · simp only [if_neg h1, if_pos h2] at h
          cases h
        · simp only [if_neg h1, if_neg h2] at h ⊢
          exact ih bs y1 y2 (by simpa using hlen) h

/-- With equal left parts, the right parts decide the lexicographic
comparison of concatenations. -/
theorem lexLt_append_right : ∀ (x y1 y2 : List Char),
    lexLt y1 y2 = true → lexLt (x ++ y1) (x ++ y2) = true := by
  intro x
  induction x with
  | nil => intro y1 y2 h; simpa using h
  | cons a xs ih =>
    intro y1 y2 h
    simp only [List.cons_append]
    rw [lexLt]
    simp only [lt_irrefl, if_neg (lt_irrefl a)]
    exact ih y1 y2 h

/-- The fueled ceiling-log search never returns less than its base. -/
theorem ceilLogAux_ge : ∀ fuel m k, k ≤ ceilLogAux fuel m k := by
  intro fuel
  induction fuel with
  | zero => intro m k; simp [ceilLogAux]
  | succ fuel ih =>
    intro m k
    rw [ceilLogAux]
    by_cases h : m ≤ 10 ^ k
    · simp [h]
    · simp only [if_neg h]
      calc k ≤ k + 1 := by omega
      _ ≤ ceilLogAux fuel m (k + 1) := ih m (k + 1)

/-- Soundness of the fueled ceiling-log search. -/
theorem ceilLogAux_sound : ∀ fuel m k, m ≤ 10 ^ (k + fuel) →
    m ≤ 10 ^ ceilLogAux fuel m k := by
  intro fuel
  induction fuel with
  | zero => intro m k h; simpa [ceilLogAux] using h
  | succ fuel ih =>
    intro m k h
    rw [ceilLogAux]
    by_cases hk : m ≤ 10 ^ k
    · simpa [hk] using hk
    · simp only [if_neg hk]
      exact ih m (k + 1) (by rw [show k + 1 + fuel = k + (fuel + 1) by omega]; exact h)

/-- Minimality of the fueled ceiling-log search. -/
theorem ceilLogAux_min : ∀ fuel m k j, k ≤ j → m ≤ 10 ^ j →
    ceilLogAux fuel m k ≤ j := by
  intro fuel
  induction fuel with
  | zero => intro m k j hkj _; simpa [ceilLogAux] using hkj
  | succ fuel ih =>
    intro m k j hkj hj
    rw [ceilLogAux]
    by_cases hk : m ≤ 10 ^ k
    · simpa [hk] using hkj
    · simp only [if_neg hk]
      have hne : k ≠ j := by
        intro he
        subst he
        exact hk hj
      exact ih m (k + 1) j (by omega) hj

/-- The value fits in its ceiling-log width. -/
theorem le_pow_ceilLog10 (m : Nat) : m ≤ 10 ^ ceilLog10 m := by
  apply ceilLogAux_sound
  calc m ≤ 10 ^ m := Nat.le_of_lt (Nat.lt_pow_self (by omega) m)
  _ ≤ 10 ^ (0 + (m + 1)) := Nat.pow_le_pow_right (by omega) (by omega)

/-- The modelled ceiling log agrees with the Mathlib ceiling log. -/
theorem ceilLog10_eq_clog (m : Nat) : ceilLog10 m = Nat.clog 10 m := by
  apply Nat.le_antisymm
  · exact ceilLogAux_min _ m 0 _ (by omega) (Nat.le_pow_clog (by omega) m)
  · exact (Nat.le_pow_iff_clog_le (by omega)).mp (le_pow_ceilLog10 m)

/-- Every element of the list is bounded by the left max-fold, and so is
the base value. -/
theorem foldl_max_bounds : ∀ (l : List Nat) (a : Nat),
    a ≤ l.foldl max a ∧ ∀ x ∈ l, x ≤ l.foldl max a := by
  intro l
  induction l with
  | nil => intro a; simp
  | cons h t ih =>
    intro a
    have base := (ih (max a h)).1
    refine ⟨le_trans (le_max_left a h) base, ?_⟩
    intro x hx
    rcases List.mem_cons.mp hx with rfl | hx
    · exact le_trans (le_max_right a x) base
    · exact (ih (max a h)).2 x hx

/-- The fixed-width representation has exactly its width as length. -/
theorem msbChars_length : ∀ w n, (msbChars w n).length = w := by
  intro w
  induction w with
  | zero => intro n; rfl
  | succ w ih => intro n; simp [msbChars, ih]

/-- The ceiling log of a value at least 2 is at least 1. -/
theorem one_le_ceilLog10 (m : Nat) (hm : 2 ≤ m) : 1 ≤ ceilLog10 m := by
  rw [ceilLog10]
  have h1 : ¬ m ≤ 10 ^ 0 := by simpa using by omega
  rw [ceilLogAux]
  simp only [if_neg h1]
  exact ceilLogAux_ge m m 1

/-- Appending strings appends their character lists. -/
theorem string_mk_append (a b : List Char) :
    String.mk a ++ String.mk b = String.mk (a ++ b) := rfl

/-- Evaluation equation: a column reference reads the cell. -/
theorem evalAt_col (T : Table) (name : String) (i : Nat) :
    IbisExpr.evalAt T (.col name) i = T.cellAt i name := rfl

/-- Evaluation equation: constant-front string concatenation. -/
theorem evalAt_strCat (T : Table) (pre : String) (a : IbisExpr) (i : Nat) :
    IbisExpr.evalAt T (.strCat pre a) i
      = (match IbisExpr.evalAt T a i with
        | some (.s t) => some (.s (pre ++ t))
        | _ => none) := rfl

/-- Evaluation equation: zero-padded rendering of an ordering id. -/
theorem evalAt_stringifyId (T : Table) (a : IbisExpr) (w i : Nat) :
    IbisExpr.evalAt T (.stringifyId a w) i
      = (match IbisExpr.evalAt T a i with
        | some (.i n) =>
          if n < 0 then none else some (.s (String.mk (zfillNat w n.toNat)))
        | _ => none) := rfl

/-- Looking a name up in a row built by mapping a per-name function over
the column list yields that function at the name. -/
theorem rowCell_map : ∀ (cols : List String) (g : String → Cell) (name : String),
    name ∈ cols → rowCell cols (cols.map g) name = g name := by
  intro cols
  induction cols with
  | nil => intro g name h; cases h
  | cons c cs ih =>
    intro g name h
    by_cases hc : c = name
    · subst hc
      simp [rowCell]
    · rcases List.mem_cons.mp h with rfl | h2
      · exact absurd rfl hc
      · simp only [List.map_cons, rowCell, if_neg hc]
        exact ih g name h2

/-- Indexing a mapped list inside its range applies the function to the
indexed element. -/
theorem getD_map_lt : ∀ (l : List α) (f : α → β) (i : Nat) (d : β) (d2 : α),
    i < l.length → (l.map f).getD i d = f (l.getD i d2) := by
  intro l
  induction l with
  | nil => intro f i d d2 h; cases h
  | cons x xs ih =>
    intro f i d d2 h
    cases i with
    | zero => rfl
    | succ i => exact ih f i d d2 (by simpa using h)

/-- Mapping the index-read function over the index range of a list is
mapping over the list. -/
theorem range_map_getD : ∀ (l : List α) (f : α → β) (d : α),
    (List.range l.length).map (fun i => f (l.getD i d)) = l.map f := by
  intro l
  induction l with
  | nil => intro f d; rfl
  | cons x xs ih =>
    intro f d
    rw [List.length_cons, List.range_succ_eq_map]
    simp only [List.map_cons, List.map_map]
    refine congrArg₂ _ rfl ?_
    rw [← ih f d]
    apply List.map_congr_left
    intro i hi
    rfl

/-- Evaluation equation of `select`. -/
theorem eval_selectT (t : TableExpr) (sel : List (String × IbisExpr)) :
    TableExpr.eval (.selectT t sel)
      = ⟨sel.map (fun c => c.1),
         (List.range (TableExpr.eval t).rows.length).map
           (fun i => sel.map (fun c => IbisExpr.evalAt (TableExpr.eval t) c.2 i))⟩ := rfl

/-- The names of the per-source concat projection are the source
column names. -/
theorem selConcat_names (psize w k : Nat) (cols : List String) :
    (cols.map (fun c =>
      if c = ORDER_ID_COLUMN then
        (ORDER_ID_COLUMN,
         IbisExpr.strCat (String.mk (zfillNat psize k))
           (stringify_order_id (IbisExpr.col ORDER_ID_COLUMN) w))
      else (c, IbisExpr.col c))).map (fun pr => pr.1) = cols := by
  induction cols with
  | nil => rfl
  | cons c cs ih =>
    simp only [List.map_cons]
    refine congrArg₂ _ ?_ ih
    by_cases hc : c = ORDER_ID_COLUMN
    · simp [hc]
    · simp [hc]

/-- Rows contributed by a list of union inputs. -/
theorem evalRows_ofList : ∀ (l : List TableExpr),
    TableListE.evalRows (TableListE.ofList l)
      = (l.map (fun t => (TableExpr.eval t).rows)).flatten := by
  intro l
  induction l with
  | nil => rfl
  | cons t rest ih =>
    simp only [TableListE.ofList, TableListE.evalRows, List.map_cons, List.flatten_cons]
    rw [ih]

/-- Evaluation of a non-empty n-ary union: the schema of the first
input, and the concatenation of all row sets. -/
theorem eval_unionT_ofList (t : TableExpr) (l : List TableExpr) :
    TableExpr.eval (.unionT (.ofList (t :: l)))
      = ⟨(TableExpr.eval t).cols,
         ((t :: l).map (fun s => (TableExpr.eval s).rows)).flatten⟩ := by
  simp only [TableListE.ofList, TableExpr.eval, List.map_cons, List.flatten_cons]
  rw [evalRows_ofList]

/-- Pointwise access to a `Forall₂` relation. -/
theorem forall₂_getElem {α β : Type} {R : α → β → Prop} :
    ∀ {l1 : List α} {l2 : List β}, List.Forall₂ R l1 l2 →
    ∀ (k : Nat) (a : α) (b : β), l1[k]? = some a → l2[k]? = some b → R a b := by
  intro l1 l2 h
  induction h with
  | nil =>
    intro k a b h1 h2
    simp at h1
  | cons hr htail ih =>
    intro k a b h1 h2
    cases k with
    | zero =>
      simp at h1 h2
      rw [← h1, ← h2]
      exact hr
    | succ k =>
      simp at h1 h2
      exact ih k a b h1 h2

/-- Index access into a zip from index access into the parts. -/
theorem getElem?_zip_of_getElem? {α β : Type} :
    ∀ (l1 : List α) (l2 : List β) (k : Nat) (a : α) (b : β),
    l1[k]? = some a → l2[k]? = some b → (l1.zip l2)[k]? = some (a, b) := by
  intro l1
  induction l1 with
  | nil => intro l2 k a b h1; simp at h1
  | cons x xs ih =>
    intro l2 k a b h1 h2
    cases l2 with
    | nil => simp at h2
    | cons y ys =>
      cases k with
      | zero =>
        simp at h1 h2
        simp [List.zip_cons_cons, h1, h2]
      | succ k =>
        simp at h1 h2
        simpa [List.zip_cons_cons] using ih ys k a b h1 h2

/-- The ordering-id column of one source after the per-source concat
projection: each id value `v` becomes the combined id string of the
source index and `v`. -/
theorem selConcat_id_column (psize w k : Nat) (cols0 : List String) (t : TableExpr)
    (vs : List Nat)
    (hcols : TableExpr.columnsOf t = cols0)
    (hord : ORDER_ID_COLUMN ∈ cols0)
    (hcv : (TableExpr.eval t).colVals ORDER_ID_COLUMN
      = vs.map (fun v => some (Val.i (Int.ofNat v)))) :
    (TableExpr.eval (selConcat psize w k t)).rows.map
        (fun r => rowCell cols0 r ORDER_ID_COLUMN)
      = vs.map (fun v => combinedIdCell psize w k v) := by
  have hlenTR : (TableExpr.eval t).rows.length = vs.length := by
    have hl := congrArg List.length hcv
    simpa [Table.colVals] using hl
  rw [selConcat, hcols, eval_selectT]
  simp only [List.map_map]
  rw [← range_map_getD vs (fun v => combinedIdCell psize w k v) 0, ← hlenTR]
  apply List.map_congr_left
  intro i hi
  have hilt : i < (TableExpr.eval t).rows.length := List.mem_range.mp hi
  have hvlt : i < vs.length := by omega
  simp only [Function.comp]
  rw [rowCell_map cols0 _ ORDER_ID_COLUMN hord]
  show IbisExpr.evalAt (TableExpr.eval t)
      (IbisExpr.strCat (String.mk (zfillNat psize k))
        (stringify_order_id (IbisExpr.col ORDER_ID_COLUMN) w)) i
    = combinedIdCell psize w k (vs.getD i 0)
  have hcell : (TableExpr.eval t).cellAt i ORDER_ID_COLUMN
      = some (Val.i (Int.ofNat (vs.getD i 0))) := by
    have h1 : (TableExpr.eval t).cellAt i ORDER_ID_COLUMN
        = ((TableExpr.eval t).colVals ORDER_ID_COLUMN).getD i none := by
      rw [Table.colVals, getD_map_lt (TableExpr.eval t).rows _ i none [] hilt]
      rfl
    rw [h1, hcv, getD_map_lt vs _ i none 0 hvlt]
  rw [stringify_order_id, evalAt_strCat, evalAt_stringifyId, evalAt_col, hcell]
  have hnn : ¬ (Int.ofNat (vs.getD i 0) < 0) :=
    Int.not_lt.mpr (Int.ofNat_nonneg _)
  simp only [if_neg hnn, combinedIdCell, string_mk_append]
  rfl

/-- Assembling the union: the combined ordering-id cells are the
per-source combined ids in source order. -/
theorem union_id_columns (psize w : Nat) (cols0 : List String)
    (hord : ORDER_ID_COLUMN ∈ cols0) :
    ∀ (srcs : List BigFramesExpr) (tls : List TableExpr) (idss : List (List Nat))
      (k0 : Nat),
    (∀ t ∈ tls, TableExpr.columnsOf t = cols0) →
    List.Forall₂ (fun (pr : BigFramesExpr × TableExpr) vs =>
      (TableExpr.eval pr.2).colVals ORDER_ID_COLUMN
        = vs.map (fun v => some (Val.i (Int.ofNat v)))
      ∧ ∀ v ∈ vs, v < 10 ^ pr.1.ordering.ordering_encoding_size)
      (srcs.zip tls) idss →
    srcs.length = tls.length →
    ((List.enumFrom k0 tls).map (fun q =>
      (TableExpr.eval (selConcat psize w q.1 q.2)).rows.map
        (fun r => rowCell cols0 r ORDER_ID_COLUMN))).flatten
    = ((List.enumFrom k0 idss).map (fun q =>
        q.2.map (fun v => combinedIdCell psize w q.1 v))).flatten := by
  intro srcs
  induction srcs with
  | nil =>
    intro tls idss k0 hcols hf hlen
    cases tls with
    | nil =>
      cases hf
      rfl
    | cons t tl => simp at hlen
  | cons e es ih =>
    intro tls idss k0 hcols hf hlen
    cases tls with
    | nil => simp at hlen
    | cons t tl =>
      rw [List.zip_cons_cons] at hf
      cases hf with
      | cons hr htail =>
        rename_i vs idss2
        simp only [List.enumFrom, List.map_cons, List.flatten_cons]
        rw [selConcat_id_column psize w k0 cols0 t vs
          (hcols t (by simp)) hord hr.1]
        rw [ih tl idss2 (k0 + 1) (fun x hx => hcols x (by simp [hx])) htail
          (by simpa using hlen)]

/-- The internal per-source compile-and-project loop of `concat`
succeeds and produces exactly the `selConcat` projections when every
source compiles. -/
theorem concat_mapM (psize w : Nat) :
    ∀ (srcs : List BigFramesExpr) (tls : List TableExpr) (k0 : Nat),
    List.Forall₂ (fun e t =>
      BigFramesExpr.to_ibis_expr e .ordered_col ORDER_ID_COLUMN = .ok t) srcs tls →
    (List.enumFrom k0 srcs).mapM (fun p => do
      let table ← p.2.to_ibis_expr .ordered_col ORDER_ID_COLUMN
      Except.ok (TableExpr.selectT table ((TableExpr.columnsOf table).map (fun c =>
        if c = ORDER_ID_COLUMN then
          (ORDER_ID_COLUMN,
           IbisExpr.strCat (String.mk (zfillNat psize p.1))
             (stringify_order_id (IbisExpr.col ORDER_ID_COLUMN) w))
        else (c, IbisExpr.col c)))))
      = .ok ((List.enumFrom k0 tls).map (fun q => selConcat psize w q.1 q.2)) := by
  intro srcs
  induction srcs with
  | nil =>
    intro tls k0 hf
    cases hf
    rfl
  | cons e es ih =>
    intro tls k0 hf
    cases hf with
    | cons hr htail =>
      rename_i t tl
      simp only [List.enumFrom, List.mapM_cons]
      have hr2 : ((k0, e) : Nat × BigFramesExpr).2.to_ibis_expr
          OrderingMode.ordered_col ORDER_ID_COLUMN = Except.ok t := hr
      rw [hr2]
      rw [ih tl (k0 + 1) htail]
      rfl

/-- Characterization of `concat` on a non-empty sibling list whose
sources all compile under `ordered_col` mode: the result wraps the union
of the per-source projections, holds the combined id as its ordering-id
meta column, and records encoding size `prefix_size + max_size`. -/
theorem concat_spec (e0 : BigFramesExpr) (es : List BigFramesExpr) (ts : List TableExpr)
    (hne : es ≠ [])
    (hts : List.Forall₂ (fun e t =>
      BigFramesExpr.to_ibis_expr e .ordered_col ORDER_ID_COLUMN = .ok t)
      (e0 :: es) ts) :
    ∃ c, e0.concat es = .ok c
      ∧ c.table = .unionT (.ofList ((List.enumFrom 0 ts).map (fun q =>
          selConcat (ceilLog10 (es.length + 1))
            ((es.map (fun e => e.ordering.ordering_encoding_size)).foldl max
              e0.ordering.ordering_encoding_size) q.1 q.2)))
      ∧ c.ordering =
          { ordering_value_columns := [],
            ordering_id_column := some { column_id := ORDER_ID_COLUMN },
            is_sequential := false,
            ordering_encoding_size := ceilLog10 (es.length + 1) +
              (es.map (fun e => e.ordering.ordering_encoding_size)).foldl max
                e0.ordering.ordering_encoding_size } := by
  have hne2 : es.isEmpty = false := by
    cases es
    · exact absurd rfl hne
    · rfl
  have hmap := concat_mapM (ceilLog10 (es.length + 1))
    ((es.map (fun e => e.ordering.ordering_encoding_size)).foldl max
      e0.ordering.ordering_encoding_size) (e0 :: es) ts 0 hts
  have henum : (e0 :: es).enum = List.enumFrom 0 (e0 :: es) := rfl
  refine
    ⟨{ table := TableExpr.unionT (TableListE.ofList ((List.enumFrom 0 ts).map (fun q =>
         selConcat (ceilLog10 (es.length + 1))
           ((es.map (fun e => e.ordering.ordering_encoding_size)).foldl max
             e0.ordering.ordering_encoding_size) q.1 q.2))),
       columns := ((TableExpr.columnsOf (TableExpr.unionT (TableListE.ofList
           ((List.enumFrom 0 ts).map (fun q => selConcat (ceilLog10 (es.length + 1))
             ((es.map (fun e => e.ordering.ordering_encoding_size)).foldl max
               e0.ordering.ordering_encoding_size) q.1 q.2))))).filter
           (fun c => ¬ c = ORDER_ID_COLUMN)).map (fun c => (c, IbisExpr.col c)),
       meta_columns := [(ORDER_ID_COLUMN, IbisExpr.col ORDER_ID_COLUMN)],
       ordering :=
         { ordering_value_columns := [],
           ordering_id_column := some { column_id := ORDER_ID_COLUMN },
           is_sequential := false,
           ordering_encoding_size := ceilLog10 (es.length + 1) +
             (es.map (fun e => e.ordering.ordering_encoding_size)).foldl max
               e0.ordering.ordering_encoding_size },
       predicates := [] },
     ?_, rfl, rfl⟩
  show BigFramesExpr.concat e0 es = _
  rw [BigFramesExpr.concat]
  simp only [hne2, Bool.false_eq_true, if_false, henum]
  rw [hmap]
  rfl

/-- Row set of a non-empty n-ary union. -/
theorem eval_unionT_rows (t : TableExpr) (l : List TableExpr) :
    (TableExpr.eval (.unionT (.ofList (t :: l)))).rows
      = ((t :: l).map (fun s => (TableExpr.eval s).rows)).flatten := by
  rw [eval_unionT_ofList]

/-- Schema of a non-empty n-ary union: that of the first input. -/
theorem eval_unionT_cols (t : TableExpr) (l : List TableExpr) :
    (TableExpr.eval (.unionT (.ofList (t :: l)))).cols = (TableExpr.eval t).cols := by
  rw [eval_unionT_ofList]

/-- The ordering-id column of the union of the per-source concat
projections, as a single list: per-source combined ids in source
order. -/
theorem union_colVals (psize w : Nat) (cols0 : List String)
    (hord : ORDER_ID_COLUMN ∈ cols0) (srcs : List BigFramesExpr)
    (tls : List TableExpr) (idss : List (List Nat))
    (hcols : ∀ t ∈ tls, TableExpr.columnsOf t = cols0)
    (hf : List.Forall₂ (fun (pr : BigFramesExpr × TableExpr) vs =>
      (TableExpr.eval pr.2).colVals ORDER_ID_COLUMN
        = vs.map (fun v => some (Val.i (Int.ofNat v)))
      ∧ ∀ v ∈ vs, v < 10 ^ pr.1.ordering.ordering_encoding_size)
      (srcs.zip tls) idss)
    (hlen : srcs.length = tls.length)
    (hne : tls ≠ []) :
    (TableExpr.eval (.unionT (.ofList ((List.enumFrom 0 tls).map (fun q =>
        selConcat psize w q.1 q.2))))).colVals ORDER_ID_COLUMN
      = ((List.enumFrom 0 idss).map (fun q =>
          q.2.map (fun v => combinedIdCell psize w q.1 v))).flatten := by
  cases tls with
  | nil => exact absurd rfl hne
  | cons t0 tl =>
    have hU : (List.enumFrom 0 (t0 :: tl)).map (fun q => selConcat psize w q.1 q.2)
        = selConcat psize w 0 t0 ::
          (List.enumFrom 1 tl).map (fun q => selConcat psize w q.1 q.2) := rfl
    have hc0 : (TableExpr.eval (selConcat psize w 0 t0)).cols = cols0 := by
      rw [selConcat, eval_selectT]
      exact (selConcat_names _ _ _ _).trans (hcols t0 (by simp))
    rw [Table.colVals, hU, eval_unionT_rows, eval_unionT_cols, hc0, ← hU,
        List.map_flatten, List.map_map, List.map_map]
    rw [show ((List.map (fun r => rowCell cols0 r ORDER_ID_COLUMN) ∘
        fun s => (TableExpr.eval s).rows) ∘ fun (q : Nat × TableExpr) =>
          selConcat psize w q.1 q.2)
      = (fun (q : Nat × TableExpr) =>
          (TableExpr.eval (selConcat psize w q.1 q.2)).rows.map
            (fun r => rowCell cols0 r ORDER_ID_COLUMN)) from rfl]
    exact union_id_columns psize w cols0 hord srcs (t0 :: tl) idss 0 hcols hf hlen

/-- Claim C2 (union ordering law): for a non-empty sibling list whose
sources compile under `ordered_col` mode into tables over the same
column list, with integer ordering ids within the encoding width of
each source, `concat` unions the per-source projections whose combined id is
the source index zero-padded to `ceil(log10(N+1))` digits followed by
the id zero-padded to the maximum encoding width; the resulting
ordering records encoding size `prefix + max` with the combined id as a
defined, non-sequential ordering id; and lexicographic comparison of
the combined ids reproduces source order first (every id of an earlier
source below every id of a later source) and numeric id order within a
source. -/
theorem union_ordering_law (e0 : BigFramesExpr) (es : List BigFramesExpr)
    (ts : List TableExpr) (ids : List (List Nat)) (cols0 : List String)
    (hne : es ≠ [])
    (hts : List.Forall₂ (fun e t =>
      BigFramesExpr.to_ibis_expr e .ordered_col ORDER_ID_COLUMN = .ok t)
      (e0 :: es) ts)
    (hcols : ∀ t ∈ ts, TableExpr.columnsOf t = cols0)
    (hord : ORDER_ID_COLUMN ∈ cols0)
    (hids : List.Forall₂ (fun (pr : BigFramesExpr × TableExpr) vs =>
      (TableExpr.eval pr.2).colVals ORDER_ID_COLUMN
        = vs.map (fun v => some (Val.i (Int.ofNat v)))
      ∧ ∀ v ∈ vs, v < 10 ^ pr.1.ordering.ordering_encoding_size)
      ((e0 :: es).zip ts) ids) :
    ∃ c, e0.concat es = .ok c
      ∧ c.ordering.ordering_encoding_size
          = ceilLog10 (es.length + 1) +
            (es.map (fun e => e.ordering.ordering_encoding_size)).foldl max
              e0.ordering.ordering_encoding_size
      ∧ c.ordering.ordering_id = some ORDER_ID_COLUMN
      ∧ c.ordering.is_sequential = false
      ∧ (TableExpr.eval c.table).colVals ORDER_ID_COLUMN
          = ((List.enumFrom 0 ids).map (fun q =>
              q.2.map (fun v => combinedIdCell (ceilLog10 (es.length + 1))
                ((es.map (fun e => e.ordering.ordering_encoding_size)).foldl max
                  e0.ordering.ordering_encoding_size) q.1 v))).flatten
      ∧ (∀ k1 k2 vs1 vs2 v1 v2, ids[k1]? = some vs1 → ids[k2]? = some vs2 →
          k1 < k2 → v1 ∈ vs1 → v2 ∈ vs2 →
          lexLt (zfillNat (ceilLog10 (es.length + 1)) k1 ++
              zfillNat ((es.map (fun e => e.ordering.ordering_encoding_size)).foldl max
                e0.ordering.ordering_encoding_size) v1)
            (zfillNat (ceilLog10 (es.length + 1)) k2 ++
              zfillNat ((es.map (fun e => e.ordering.ordering_encoding_size)).foldl max
                e0.ordering.ordering_encoding_size) v2) = true)
      ∧ (∀ k vs v1 v2, ids[k]? = some vs → v1 ∈ vs → v2 ∈ vs → v1 < v2 →
          lexLt (zfillNat (ceilLog10 (es.length + 1)) k ++
              zfillNat ((es.map (fun e => e.ordering.ordering_encoding_size)).foldl max
                e0.ordering.ordering_encoding_size) v1)
            (zfillNat (ceilLog10 (es.length + 1)) k ++
              zfillNat ((es.map (fun e => e.ordering.ordering_encoding_size)).foldl max
                e0.ordering.ordering_encoding_size) v2) = true) := by
  have hlen : (e0 :: es).length = ts.length := hts.length_eq
  have hlenzip : ((e0 :: es).zip ts).length = ids.length := hids.length_eq
  have hidslen : ids.length = es.length + 1 := by
    rw [← hlenzip, List.length_zip]
    simp at hlen
    simp [hlen]
  have hP1 : 1 ≤ ceilLog10 (es.length + 1) := by
    apply one_le_ceilLog10
    cases es
    · exact absurd rfl hne
    · simp
  have hPbound : es.length + 1 ≤ 10 ^ ceilLog10 (es.length + 1) :=
    le_pow_ceilLog10 (es.length + 1)
  have htsne : ts ≠ [] := by
    intro h
    rw [h] at hlen
    simp at hlen
  obtain ⟨c, hc, htab, hordrec⟩ := concat_spec e0 es ts hne hts
  refine ⟨c, hc, by rw [hordrec], by rw [hordrec]; rfl, by rw [hordrec], ?_, ?_, ?_⟩
  · rw [htab]
    exact union_colVals _ _ cols0 hord (e0 :: es) ts ids hcols hids
      (by simpa using hlen) htsne
  · -- source order dominates
    intro k1 k2 vs1 vs2 v1 v2 h1 h2 hk hv1 hv2
    have hk2 : k2 < ids.length := by
      by_contra hcontra
      rw [List.getElem?_eq_none (by omega)] at h2
      cases h2
    have hk2p : k2 < 10 ^ ceilLog10 (es.length + 1) := by omega
    have hk1p : k1 < 10 ^ ceilLog10 (es.length + 1) := by omega
    obtain ⟨P2, hP2⟩ : ∃ P2, ceilLog10 (es.length + 1) = P2 + 1 :=
      ⟨ceilLog10 (es.length + 1) - 1, by omega⟩
    rw [hP2] at hk1p hk2p ⊢
    rw [zfillNat_eq_msbChars P2 k1 hk1p, zfillNat_eq_msbChars P2 k2 hk2p]
    apply lexLt_append_left
    · rw [msbChars_length, msbChars_length]
    · exact (lexLt_msbChars (P2 + 1) k1 k2 hk1p hk2p).mpr hk
  · -- within-source numeric order
    intro k vs v1 v2 h hv1 hv2 hlt
    have hk : k < ids.length := by
      by_contra hcontra
      rw [List.getElem?_eq_none (by omega)] at h
      cases h
    have hksrc : k < (e0 :: es).length := by
      simp
      omega
    have hkts : k < ts.length := by omega
    have hsrc : (e0 :: es)[k]? = some ((e0 :: es).get ⟨k, hksrc⟩) := by
      rw [List.getElem?_eq_getElem hksrc, List.get_eq_getElem]
    have hts2 : ts[k]? = some (ts.get ⟨k, hkts⟩) := by
      rw [List.getElem?_eq_getElem hkts, List.get_eq_getElem]
    have hzip := getElem?_zip_of_getElem? (e0 :: es) ts k _ _ hsrc hts2
    have hrel := forall₂_getElem hids k _ vs hzip h
    have hbound1 : v1 < 10 ^ ((e0 :: es).get ⟨k, hksrc⟩).ordering.ordering_encoding_size :=
      hrel.2 v1 hv1
    have hbound2 : v2 < 10 ^ ((e0 :: es).get ⟨k, hksrc⟩).ordering.ordering_encoding_size :=
      hrel.2 v2 hv2
    have hencW : ((e0 :: es).get ⟨k, hksrc⟩).ordering.ordering_encoding_size
        ≤ (es.map (fun e => e.ordering.ordering_encoding_size)).foldl max
          e0.ordering.ordering_encoding_size := by
      have hmem : ((e0 :: es).get ⟨k, hksrc⟩) ∈ e0 :: es := List.get_mem _ _ _
      rcases List.mem_cons.mp hmem with heq | hmem2
      · rw [heq]
        exact (foldl_max_bounds _ _).1
      · exact (foldl_max_bounds _ _).2 _
          (List.mem_map_of_mem (fun e => e.ordering.ordering_encoding_size) hmem2)
    have hWpow : (10 : Nat) ^ ((e0 :: es).get ⟨k, hksrc⟩).ordering.ordering_encoding_size
        ≤ 10 ^ ((es.map (fun e => e.ordering.ordering_encoding_size)).foldl max
          e0.ordering.ordering_encoding_size) :=
      Nat.pow_le_pow_right (by omega) hencW
    have hv1W : v1 < 10 ^ ((es.map (fun e => e.ordering.ordering_encoding_size)).foldl
        max e0.ordering.ordering_encoding_size) := by omega
    have hv2W : v2 < 10 ^ ((es.map (fun e => e.ordering.ordering_encoding_size)).foldl
        max e0.ordering.ordering_encoding_size) := by omega
    cases hW : (es.map (fun e => e.ordering.ordering_encoding_size)).foldl max
        e0.ordering.ordering_encoding_size with
    | zero =>
      exfalso
      rw [hW] at hv2W
      simp at hv2W
      omega
    | succ W2 =>
      rw [hW] at hv1W hv2W
      apply lexLt_append_right
      rw [zfillNat_eq_msbChars W2 v1 hv1W, zfillNat_eq_msbChars W2 v2 hv2W]
      exact (lexLt_msbChars (W2 + 1) v1 v2 hv1W hv2W).mpr hlt

/-- Witness for claim C2: sources A (3 rows, ids 0..2) and B (2 rows,
ids 0 and 1), both sequential with encoding size 1.  The combined id
column is 00, 01, 02, 10, 11 — every row of A lexicographically
precedes every row of B and intra-source order is preserved — and the
result records encoding size 2. -/
theorem union_ordering_law_witness :
    ∃ c, exprConcatA.concat [exprConcatB] = .ok c
      ∧ c.ordering.ordering_encoding_size = 2
      ∧ (TableExpr.eval c.table).colVals ORDER_ID_COLUMN
          = [combinedIdCell 1 1 0 0, combinedIdCell 1 1 0 1, combinedIdCell 1 1 0 2,
             combinedIdCell 1 1 1 0, combinedIdCell 1 1 1 1]
      ∧ lexLt (zfillNat 1 0 ++ zfillNat 1 2) (zfillNat 1 1 ++ zfillNat 1 0) = true
      ∧ lexLt (zfillNat 1 1 ++ zfillNat 1 0) (zfillNat 1 1 ++ zfillNat 1 1) = true := by
  obtain ⟨c, hc, henc, hid, hseq, hcol, hcross, hwithin⟩ :=
    union_ordering_law exprConcatA [exprConcatB] [tblConcatA, tblConcatB]
      [[0, 1, 2], [0, 1]] ["x", "leanframe_ordering_id"]
      (by decide)
      (List.Forall₂.cons (by decide)
        (List.Forall₂.cons (by decide) List.Forall₂.nil))
      (by decide)
      (by decide)
      (List.Forall₂.cons ⟨by decide, by decide⟩
        (List.Forall₂.cons ⟨by decide, by decide⟩ List.Forall₂.nil))
  refine ⟨c, hc, ?_, ?_, ?_, ?_⟩
  · rw [henc]
    decide
  · rw [hcol]
    decide
  · exact hcross 0 1 [0, 1, 2] [0, 1] 2 0 rfl rfl (by decide) (by decide) (by decide)
  · exact hwithin 1 [0, 1] 0 1 rfl (by decide) (by decide) (by decide)
